import Mathlib

/-!
Verification of the numerical core of the ADMDynAnlz molecular-dynamics
post-processing toolkit, shallowly embedded in Lean 4.

The embedding covers:
* `main_functions/path_utils.py` — `validate_path_pattern`;
* `main_functions/COM_calc.py` — `_compute_com_vectorized`,
  `_compute_com_single_file`, the sequential driver loop of `coms`;
* `main_functions/unwrap_coords.py` — the XSC box-size parse of `unwrapper`
  and the per-file minimum-image recurrence `_unwrap_single_file`;
* `main_functions/alpha2_MSD.py` — the per-file displacement statistics, the
  accumulation loop, and the ε-guarded α₂ finalisation of `a2_MSD`;
* `main_functions/axz.py` — the analogous pipeline of `alpha_xz`.

Machine floats are modelled as exact rationals `ℚ`; files are lists of rows
of rationals; the filesystem is a function from file index to file content
(`FileData`); exceptions are modelled with `Except`.
-/

namespace ADMDynAnlz

/-! ### Generic list helpers (numpy reshape / elementwise operations) -/

/-- Structural worker for `chunksOf`; the fuel argument is an upper bound on
the number of chunks still to produce, so that the recursion is structural
and reduces definitionally. -/
def chunksOfGo {α : Type} (k : Nat) : Nat → List α → List (List α)
  | _, [] => []
  | 0, _ :: _ => []
  | fuel + 1, x :: xs =>
    if k = 0 then []
    else (x :: xs).take k :: chunksOfGo k fuel ((x :: xs).drop k)

/-- Split a list into consecutive chunks of size `k` (the semantics of a
numpy `reshape(-1, k)` on the flattened trailing axis). -/
def chunksOf {α : Type} (k : Nat) (l : List α) : List (List α) :=
  chunksOfGo k l.length l

theorem chunksOfGo_nil {α : Type} (k fuel : Nat) :
    chunksOfGo (α := α) k fuel [] = [] := by
  cases fuel <;> rfl

theorem chunksOfGo_congr {α : Type} (k : Nat) :
    ∀ (f1 f2 : Nat) (l : List α), l.length ≤ f1 → l.length ≤ f2 →
      chunksOfGo k f1 l = chunksOfGo k f2 l := by
  intro f1
  induction f1 with
  | zero =>
    intro f2 l h1 _
    have : l = [] := List.eq_nil_of_length_eq_zero (by omega)
    subst this
    rw [chunksOfGo_nil, chunksOfGo_nil]
  | succ n ih =>
    intro f2 l h1 h2
    cases l with
    | nil => rw [chunksOfGo_nil, chunksOfGo_nil]
    | cons x xs =>
      cases f2 with
      | zero => simp at h2
      | succ m =>
        by_cases hk : k = 0
        · simp [chunksOfGo, hk]
        · simp only [chunksOfGo, hk, if_false]
          congr 1
          have h2' : 0 < k := Nat.pos_of_ne_zero hk
          refine ih m ((x :: xs).drop k) ?_ ?_ <;>
            simp only [List.length_drop, List.length_cons] <;>
            simp only [List.length_cons] at h1 h2 <;> omega

theorem chunksOf_nil {α : Type} (k : Nat) : chunksOf (α := α) k [] = [] := rfl

theorem chunksOf_cons_of_ne {α : Type} (k : Nat) (l : List α)
    (hk : k ≠ 0) (hl : l ≠ []) :
    chunksOf k l = l.take k :: chunksOf k (l.drop k) := by
  match l with
  | x :: xs =>
    show chunksOfGo k (xs.length + 1) (x :: xs) = _
    simp only [chunksOfGo, hk, if_false]
    congr 1
    refine chunksOfGo_congr k xs.length ((x :: xs).drop k).length
      ((x :: xs).drop k) ?_ le_rfl
    simp only [List.length_drop, List.length_cons]
    have : 0 < k := Nat.pos_of_ne_zero hk
    omega

/-- A list of length `m * k` splits into `m` chunks, each of length `k`. -/
theorem chunksOf_spec {α : Type} (k : Nat) (hk : 0 < k) :
    ∀ (m : Nat) (l : List α), l.length = m * k →
      (chunksOf k l).length = m ∧ ∀ c ∈ chunksOf k l, c.length = k := by
  intro m
  induction m with
  | zero =>
    intro l hl
    have : l = [] := List.eq_nil_of_length_eq_zero (by simpa using hl)
    subst this
    simp [chunksOf_nil]
  | succ n ih =>
    intro l hl
    have hlen : 0 < l.length := by
      rw [hl]; exact Nat.mul_pos (Nat.succ_pos n) hk
    have hne : l ≠ [] := List.ne_nil_of_length_pos hlen
    rw [chunksOf_cons_of_ne k l (Nat.pos_iff_ne_zero.mp hk) hne]
    have hdrop : (l.drop k).length = n * k := by
      simp only [List.length_drop, hl]
      calc (n + 1) * k - k = n * k + k - k := by ring_nf
        _ = n * k := by omega
    obtain ⟨ihlen, ihmem⟩ := ih (l.drop k) hdrop
    refine ⟨by simp [ihlen], ?_⟩
    intro c hc
    rcases List.mem_cons.mp hc with h | h
    · subst h
      simp only [List.length_take, hl]
      have : k ≤ (n + 1) * k := Nat.le_mul_of_pos_left k (Nat.succ_pos n)
      omega
    · exact ihmem c h

/-- Indexing into the chunks of a list of length `m * k`. -/
theorem chunksOf_getElem? {α : Type} (k : Nat) (hk : 0 < k) :
    ∀ (m i : Nat) (l : List α), l.length = m * k → i < m →
      (chunksOf k l)[i]? = some ((l.drop (i * k)).take k) := by
  intro m
  induction m with
  | zero => intro i l _ hi; omega
  | succ n ih =>
    intro i l hl hi
    have hlen : 0 < l.length := by
      rw [hl]; exact Nat.mul_pos (Nat.succ_pos n) hk
    have hne : l ≠ [] := List.ne_nil_of_length_pos hlen
    rw [chunksOf_cons_of_ne k l (Nat.pos_iff_ne_zero.mp hk) hne]
    cases i with
    | zero => simp
    | succ j =>
      have hdrop : (l.drop k).length = n * k := by
        simp only [List.length_drop, hl]
        calc (n + 1) * k - k = n * k + k - k := by ring_nf
          _ = n * k := by omega
      have := ih j (l.drop k) hdrop (by omega)
      simp only [List.getElem?_cons_succ, this, List.drop_drop]
      congr 2
      ring

/-- Elementwise sum of two equal-shape rows (numpy `+` on 1-D arrays). -/
def vAdd (a b : List ℚ) : List ℚ := List.zipWith (· + ·) a b

/-- Elementwise sum of two equal-shape matrices (numpy `+=` on 2-D arrays). -/
def matAdd (a b : List (List ℚ)) : List (List ℚ) := List.zipWith vAdd a b

/-- Elementwise product of two equal-shape matrices (numpy `*`). -/
def matMul (a b : List (List ℚ)) : List (List ℚ) :=
  List.zipWith (List.zipWith (· * ·)) a b

/-- Scale every entry of a matrix (numpy scalar broadcasting). -/
def matSMul (c : ℚ) (a : List (List ℚ)) : List (List ℚ) :=
  a.map (fun r => r.map (fun x => c * x))

/-! ### `path_utils.validate_path_pattern` -/

/-- The number of non-overlapping occurrences of the literal substring
`"\x7bi\x7d"`, as computed by Python's `pattern.count('\x7bi\x7d')` in
`validate_path_pattern`. -/
def countLitI : List Char → Nat
  | '\x7b' :: 'i' :: '\x7d' :: rest => countLitI rest + 1
  | _ :: rest => countLitI rest
  | [] => 0

/-- Greedy scan for the regex fragment `[^i\x7d]+\x7d` starting right after an
opening brace: consume characters that are neither `i` nor a closing brace;
succeed iff at least one was consumed and the next character closes the
brace.  This is the matching behaviour of `re.findall` for the pattern
`\x5c\x7b[^i\x7d]+\x5c\x7d` at a fixed start position. -/
def scanBody : List Char → Nat → Bool
  | [], _ => false
  | c :: rest, n =>
    if c = '\x7d' then decide (1 ≤ n)
    else if c = 'i' then false
    else scanBody rest (n + 1)

/-- `True` iff the pattern contains a match of the regex
`\x5c\x7b[^i\x7d]+\x5c\x7d` (a brace group with a nonempty body containing
neither `i` nor a closing brace), i.e. iff `re.findall` in
`validate_path_pattern` returns a nonempty list. -/
def hasBadPlaceholder : List Char → Bool
  | [] => false
  | c :: rest => (decide (c = '\x7b') && scanBody rest 0) || hasBadPlaceholder rest

/-- `path_utils.validate_path_pattern`: returns `(is_valid, error_message)`.
The checks, in source order: empty patterns are valid; more than one literal
`"\x7bi\x7d"` is rejected; a brace group whose nonempty body contains no `i`
(and no closing brace) is rejected; unbalanced brace counts are rejected. -/
def validate_path_pattern (p : List Char) : Bool × String :=
  if p = [] then (true, "")
  else if 1 < countLitI p then (false, "Multiple index placeholders not supported")
  else if hasBadPlaceholder p then (false, "Unsupported format placeholders")
  else if p.count '\x7b' ≠ p.count '\x7d' then (false, "Unmatched braces in pattern")
  else (true, "")

/-- Spec-side count of the literal `"\x7bi\x7d"`: the number of positions at
which it occurs as a substring.  Used to relate the scanning implementation
to a positional description. -/
def specLitICount (p : List Char) : Nat :=
  (List.range p.length).countP
    (fun k => decide ((p.drop k).take 3 = ['\x7b', 'i', '\x7d']))

/-- Spec-side description of a bad placeholder: somewhere in the pattern
there is `'\x7b' :: body ++ '\x7d' :: _` with `body` nonempty and free of
both `i` and closing braces. -/
def BadPlaceholder (p : List Char) : Prop :=
  ∃ a body b, p = a ++ '\x7b' :: (body ++ '\x7d' :: b) ∧ body ≠ [] ∧
    ∀ c ∈ body, c ≠ 'i' ∧ c ≠ '\x7d'

/-- Remainder of the list after the first closing brace, if any. -/
def skipToClose : List Char → Option (List Char)
  | [] => none
  | c :: rest => if c = '\x7d' then some rest else skipToClose rest

/-- Structural worker for `braceGroupCount` (the fuel is an upper bound on
the recursion depth, so the definition reduces definitionally). -/
def braceGroupCountGo : Nat → List Char → Nat
  | _, [] => 0
  | 0, _ :: _ => 0
  | fuel + 1, c :: rest =>
    if c = '\x7b' then
      match skipToClose rest with
      | some r => braceGroupCountGo fuel r + 1
      | none => 0
    else braceGroupCountGo fuel rest

/-- Spec-side count of maximal top-level `\x7b...\x7d` groups in a pattern:
on each opening brace, skip to the first closing brace and count one
group. -/
def braceGroupCount (p : List Char) : Nat := braceGroupCountGo p.length p

/-! ### Center of mass (`COM_calc.py`) -/

/-- Mass-weighted sum over the atom axis:
`np.sum(coords * masses_broadcast, axis=2)` for one molecule.  `atoms` is the
list of per-atom coordinate triples of the molecule; each atom's coordinates
are scaled by its mass and the scaled triples are summed elementwise. -/
def weightedSum (masses : List ℚ) (atoms : List (List ℚ)) : List ℚ :=
  (List.zipWith (fun m a => a.map (fun c => m * c)) masses atoms).foldr vAdd
    [0, 0, 0]

/-- `_compute_com_vectorized` on a single frame row of length `M * A * 3`:
reshape into `M` molecules of `A` atoms of 3 coordinates, mass-weight, sum
over atoms, divide by the total mass, and flatten back to `3 * M` columns. -/
def comRow (A : Nat) (masses : List ℚ) (row : List ℚ) : List ℚ :=
  ((chunksOf (A * 3) row).map (fun mol =>
    (weightedSum masses (chunksOf 3 mol)).map (fun c => c / masses.sum))).flatten

/-- `_compute_com_single_file` on already-loaded data: check the column
count (`data.shape[1] != prtcl_num * prtcl_atoms * 3` raises), then apply the
vectorized center-of-mass reduction to every frame. -/
def computeComFile (M A : Nat) (masses : List ℚ) (data : List (List ℚ)) :
    Except String (List (List ℚ)) :=
  if data.all (fun r => r.length = M * A * 3) then
    .ok (data.map (comRow A masses))
  else .error "column count mismatch"

/-! ### Periodic unwrapping (`unwrap_coords.py`) -/

/-- A 3-vector of rationals (one atom's x, y, z). -/
abbrev Vec3 := ℚ × ℚ × ℚ

/-- One frame: the coordinate triples of all atoms. -/
abbrev UFrame := List Vec3

/-- Minimum-image correction of a single scalar displacement, as done per
axis in `_unwrap_single_file`: both masks are computed from the uncorrected
difference, then the box length is subtracted where `diff > thold` and added
where `diff < -thold`. -/
def correct1 (box thold d : ℚ) : ℚ :=
  (if thold < d then d - box else d) + (if d < -thold then box else 0)

def vsub (a b : Vec3) : Vec3 := (a.1 - b.1, a.2.1 - b.2.1, a.2.2 - b.2.2)

def vadd (a b : Vec3) : Vec3 := (a.1 + b.1, a.2.1 + b.2.1, a.2.2 + b.2.2)

/-- Apply the per-axis minimum-image correction to a displacement triple. -/
def correctVec (box thold d : Vec3) : Vec3 :=
  (correct1 box.1 thold.1 d.1,
   correct1 box.2.1 thold.2.1 d.2.1,
   correct1 box.2.2 thold.2.2 d.2.2)

/-- One loop iteration of `_unwrap_single_file`:
`diff = coords[frame] - coords[frame-1]`, corrected per axis, then
`unwrapped[frame] = unwrapped[frame-1] + diff`. -/
def unwrapStep (box thold : Vec3) (prevW prevU cur : UFrame) : UFrame :=
  List.zipWith vadd prevU
    (List.zipWith (fun c pw => correctVec box thold (vsub c pw)) cur prevW)

/-- The frame recurrence of `_unwrap_single_file` after the seed frame. -/
def unwrapAux (box thold : Vec3) (prevW prevU : UFrame) :
    List UFrame → List UFrame
  | [] => []
  | c :: rest =>
    let u := unwrapStep box thold prevW prevU c
    u :: unwrapAux box thold c u rest

/-- `_unwrap_single_file` on reshaped coordinates: `unwrapped[0] = coords[0]`
is the seed, every later frame is the corrected recurrence. -/
def unwrapFile (box thold : Vec3) : List UFrame → List UFrame
  | [] => []
  | f :: rest => f :: unwrapAux box thold f f rest

/-- Parse the box size as `unwrapper` does: take the last line of the XSC
file and read the numeric tokens at (0-indexed) positions 1, 5 and 9 as the
x, y, z box lengths; any missing line or token is an error. -/
def readBoxSize (lines : List (List ℚ)) : Option Vec3 :=
  match lines.getLast? with
  | none => none
  | some last =>
    match last[1]?, last[5]?, last[9]? with
    | some x, some y, some z => some (x, y, z)
    | _, _, _ => none

/-- Modelled from the spec: the spec's sentence "columns at positions 1, 5, 9
(1-indexed numeric tokens) hold the x, y, z box lengths" — under 1-indexed
counting these are the tokens at 0-indexed positions 0, 4 and 8.  Used only
to compare the spec's wording with `readBoxSize`. -/
def readBoxSizeSpecOneIndexed (lines : List (List ℚ)) : Option Vec3 :=
  match lines.getLast? with
  | none => none
  | some last =>
    match last[0]?, last[4]?, last[8]? with
    | some x, some y, some z => some (x, y, z)
    | _, _, _ => none

/-- `thold = box_size / 2` in `unwrapper`. -/
def halfVec (b : Vec3) : Vec3 := (b.1 / 2, b.2.1 / 2, b.2.2 / 2)

/-! ### Filesystem and error model shared by the drivers -/

/-- The content found at one input path: the file may be absent
(`os.path.exists` false / `FileNotFoundError`), unreadable by `np.loadtxt`,
or a 2-D whitespace-delimited numeric array given by its rows. -/
inductive FileData where
  | missing
  | corrupt
  | fine (rows : List (List ℚ))
deriving DecidableEq

/-- The fatal-error channel of the drivers: `FileNotFoundError` for the
up-front first-file check, `ValueError`-kind configuration errors, the
"no trajectory files were successfully processed" abort, and an invalid
path pattern. -/
inductive Err where
  | fileNotFound
  | valueError
  | noSuccess
  | invalidPattern
deriving DecidableEq

/-! ### Ensemble displacement statistics (`alpha2_MSD.py`, `axz.py`) -/

/-- ε of the numeric-stability guards in `a2_MSD` and `alpha_xz`. -/
def eps : ℚ := 1 / 10 ^ 12

/-- What `np.loadtxt(file_path, usecols=range(partcl_num*3))` hands back:
an exception, or — because `loadtxt` squeezes (default `ndmin=0`) — a 1-D
array (a file with at most one data row, whose `len` is the kept column
count) or a 2-D array (one kept row per line, `len` = the row count). -/
inductive LoadResult where
  | err
  | oneD (vals : List ℚ)
  | twoD (rows : List (List ℚ))
deriving DecidableEq

/-- `np.loadtxt(file_path, usecols=range(partcl_num*3))`: every row must
provide at least `M * 3` columns, of which the first `M * 3` are kept; an
empty or single-row file yields a squeezed 1-D array. -/
def loadCols (M : Nat) (d : FileData) : LoadResult :=
  match d with
  | .missing => .err
  | .corrupt => .err
  | .fine rows =>
    if rows.all (fun r => M * 3 ≤ r.length) then
      match rows with
      | [] => .oneD []
      | [r] => .oneD (r.take (M * 3))
      | rs => .twoD (rs.map (List.take (M * 3)))
    else .err

theorem loadCols_twoD_inv (M : Nat) (rows rowsL : List (List ℚ))
    (h : loadCols M (.fine rows) = .twoD rowsL) :
    (∀ r ∈ rows, M * 3 ≤ r.length) ∧
    rowsL = rows.map (List.take (M * 3)) ∧ 2 ≤ rowsL.length := by
  simp only [loadCols] at h
  by_cases hall : rows.all (fun r => M * 3 ≤ r.length)
  · rw [if_pos hall] at h
    refine ⟨fun r hr => by simpa using (List.all_eq_true.mp hall r hr), ?_⟩
    cases rows with
    | nil => exact absurd h (by simp)
    | cons a tl =>
      cases tl with
      | nil => exact absurd h (by simp)
      | cons b tl' =>
        have h' : LoadResult.twoD ((a :: b :: tl').map (List.take (M * 3))) =
            LoadResult.twoD rowsL := h
        injection h' with h'
        exact ⟨h'.symm, by rw [← h']; simp⟩
  · rw [if_neg hall] at h
    exact absurd h (by simp)

/-- Displacements relative to the file's own first frame:
`data.reshape(len(data), M, 3) - data[0, :, :]`, giving per frame and
molecule the 3-component displacement. -/
def fileDisp (rows : List (List ℚ)) : List (List (List ℚ)) :=
  let frames := rows.map (chunksOf 3)
  let f0 := frames.headD []
  frames.map (fun fr =>
    List.zipWith (fun mol mol0 => List.zipWith (fun a b => a - b) mol mol0) fr f0)

/-- `np.einsum('ijk,ijk->ij', data, data)` on the displacements: the squared
displacement per frame and molecule. -/
def fileD2 (rows : List (List ℚ)) : List (List ℚ) :=
  (fileDisp rows).map (fun fr => fr.map (fun mol => (mol.map (fun x => x ^ 2)).sum))

/-- The shared per-index loop state of `a2_MSD` and `alpha_xz`:
success count, failed indices, skipped indices, and the lazily initialised
accumulator payload. -/
structure DriverState (π : Type) where
  success : Nat
  failed : List Nat
  skipped : List Nat
  acc : Option π
deriving DecidableEq

/-- How one file is handled by the loop body: an exception (missing file,
parse error, accumulation shape error), the insufficient-frames skip, or a
successfully computed per-file contribution. -/
inductive FileClass (π : Type) where
  | failedC
  | skippedC
  | okC (payload : π)
deriving DecidableEq

def initState (π : Type) : DriverState π := ⟨0, [], [], none⟩

/-- One iteration of the shared accumulation loop: exceptions append the
index to `failed`, too-few-frames appends to `skipped`; the first successful
payload initialises the accumulator (`np.zeros_like` + `+=`), later payloads
are added in place when the shape matches and raise (→ `failed`) otherwise. -/
def driverStep {π : Type} (shapeOK : π → π → Bool) (padd : π → π → π)
    (classify : Nat → FileClass π) (st : DriverState π) (f : Nat) :
    DriverState π :=
  match classify f with
  | .failedC => { st with failed := st.failed ++ [f] }
  | .skippedC => { st with skipped := st.skipped ++ [f] }
  | .okC p =>
    match st.acc with
    | none => { st with success := st.success + 1, acc := some p }
    | some a =>
      if shapeOK a p then
        { st with success := st.success + 1, acc := some (padd a p) }
      else { st with failed := st.failed ++ [f] }

/-- The `for f in range(num_dcd)` accumulation loop. -/
def runDriver {π : Type} (shapeOK : π → π → Bool) (padd : π → π → π)
    (classify : Nat → FileClass π) (N : Nat) : DriverState π :=
  (List.range N).foldl (driverStep shapeOK padd classify) (initState π)

/-- Per-file handling in the `a2_MSD` loop: the payload is the pair
`(data2, data4)` with `data4 = data2**2`. -/
def classifyA2 (M nF : Nat) (d : FileData) : FileClass (List (List ℚ) × List (List ℚ)) :=
  match loadCols M d with
  | .err => .failedC
  | .oneD vals =>
    -- `len(data)` of the squeezed 1-D array is the kept column count; a
    -- passing length then hits `data.reshape(len(data), M, 3)` (or, for an
    -- empty file, `data[0, :, :]`), which raises — caught as a failure.
    if vals.length < nF then .skippedC else .failedC
  | .twoD rows =>
    if rows.length < nF then .skippedC
    else
      let d2 := fileD2 rows
      .okC (d2, d2.map (fun r => r.map (fun x => x ^ 2)))

/-- Shape compatibility of an in-place numpy `+=` of two `(frames, M)`
accumulators: the frame counts must agree (the molecule count is fixed). -/
def a2ShapeOK (a p : List (List ℚ) × List (List ℚ)) : Bool :=
  a.1.length == p.1.length

def a2PAdd (a p : List (List ℚ) × List (List ℚ)) :
    List (List ℚ) × List (List ℚ) :=
  (matAdd a.1 p.1, matAdd a.2 p.2)

/-- The ε-guarded non-Gaussian parameter of `a2_MSD`:
`alpha2 = 3*msd4_avg/(5*msd_avg**2) - 1`, with the value forced to `0.0`
wherever `msd_avg**2 < 1e-12` (the non-finite clamp of the float code is
vacuous over exact rationals once that guard holds). -/
def alpha2Guard (m2 m4 : ℚ) : ℚ :=
  if m2 ^ 2 < eps then 0 else 3 * m4 / (5 * m2 ^ 2) - 1

/-- `np.mean(axis=1)`: average each row over the molecule axis, packaged as
a single remaining column. -/
def molAvg (m : List (List ℚ)) : List (List ℚ) :=
  m.map (fun r => [r.sum / (r.length : ℚ)])

/-- The result record of `a2_MSD` (plus the raw accumulated sums, exposed
for the accumulator-characterisation theorems). -/
structure A2Output where
  success : Nat
  failed : List Nat
  skipped : List Nat
  acc2 : List (List ℚ)
  acc4 : List (List ℚ)
  msdAvg : List (List ℚ)
  msd4Avg : List (List ℚ)
  msdOut : List (List ℚ)
  msd4Out : List (List ℚ)
  alpha2 : List (List ℚ)
deriving DecidableEq

/-- The close-out of `a2_MSD`: divide the accumulators by the number of
successful files, average over molecules when `partcl_num > 2`, and apply
the ε-guarded α₂ formula elementwise. -/
def a2Finalize (M : Nat) (st : DriverState (List (List ℚ) × List (List ℚ))) :
    Except Err A2Output :=
  if st.success = 0 then .error .noSuccess
  else
    match st.acc with
    | none => .error .noSuccess
    | some (a2, a4) =>
      let k : ℚ := (st.success : ℚ)
      let msdAvg := a2.map (fun r => r.map (fun x => x / k))
      let msd4Avg := a4.map (fun r => r.map (fun x => x / k))
      let msdOut := if 2 < M then molAvg msdAvg else msdAvg
      let msd4Out := if 2 < M then molAvg msd4Avg else msd4Avg
      .ok
        { success := st.success, failed := st.failed, skipped := st.skipped
          acc2 := a2, acc4 := a4, msdAvg := msdAvg, msd4Avg := msd4Avg
          msdOut := msdOut, msd4Out := msd4Out
          alpha2 := List.zipWith (List.zipWith alpha2Guard) msdOut msd4Out }

/-- `a2_MSD` (numerical core): validate that the first input file exists
(`FileNotFoundError` otherwise), run the accumulation loop over indices
`0 .. N-1`, abort when no file succeeded, finalise otherwise. -/
def a2Run (M nF : Nat) (fs : Nat → FileData) (N : Nat) : Except Err A2Output :=
  if fs 0 = .missing then .error .fileNotFound
  else a2Finalize M (runDriver a2ShapeOK a2PAdd (fun f => classifyA2 M nF (fs f)) N)

/-- The six per-file matrices accumulated by `alpha_xz`:
`Δx², Δy², Δz², Δx²Δz², Δx²Δy², Δy²Δz²`, each indexed by frame and
molecule. -/
structure XzPayload where
  x2 : List (List ℚ)
  y2 : List (List ℚ)
  z2 : List (List ℚ)
  x2z2 : List (List ℚ)
  x2y2 : List (List ℚ)
  y2z2 : List (List ℚ)
deriving DecidableEq

/-- Per-file handling in the `alpha_xz` loop: extract the axis components of
the displacements, square them, and form the three cross products. -/
def classifyXz (M nF : Nat) (d : FileData) : FileClass XzPayload :=
  match loadCols M d with
  | .err => .failedC
  | .oneD vals =>
    -- same squeeze behaviour as in `a2_MSD`: skipped on short `len(data)`,
    -- otherwise the reshape (or frame-0 indexing) raises and the file fails
    if vals.length < nF then .skippedC else .failedC
  | .twoD rows =>
    if rows.length < nF then .skippedC
    else
      let disp := fileDisp rows
      let dx2 := disp.map (fun fr => fr.map (fun mol => (mol.getD 0 0) ^ 2))
      let dy2 := disp.map (fun fr => fr.map (fun mol => (mol.getD 1 0) ^ 2))
      let dz2 := disp.map (fun fr => fr.map (fun mol => (mol.getD 2 0) ^ 2))
      .okC
        { x2 := dx2, y2 := dy2, z2 := dz2
          x2z2 := matMul dx2 dz2, x2y2 := matMul dx2 dy2
          y2z2 := matMul dy2 dz2 }

def xzShapeOK (a p : XzPayload) : Bool := a.x2.length == p.x2.length

def xzPAdd (a p : XzPayload) : XzPayload :=
  { x2 := matAdd a.x2 p.x2, y2 := matAdd a.y2 p.y2, z2 := matAdd a.z2 p.z2
    x2z2 := matAdd a.x2z2 p.x2z2, x2y2 := matAdd a.x2y2 p.x2y2
    y2z2 := matAdd a.y2z2 p.y2z2 }

/-- The ε-guarded directional correlation of `alpha_xz`:
`np.divide(num, den, out=zeros, where=|den| > eps) - 1`, after which entries
with `|den| < eps` are forced to `0.0` (the non-finite clamp is vacuous over
exact rationals). -/
def axzGuard (num den : ℚ) : ℚ :=
  if |den| < eps then 0
  else (if eps < |den| then num / den else 0) - 1

/-- The result record of `alpha_xz`. -/
structure XzOutput where
  success : Nat
  failed : List Nat
  skipped : List Nat
  x2Avg : List (List ℚ)
  y2Avg : List (List ℚ)
  z2Avg : List (List ℚ)
  x2z2Avg : List (List ℚ)
  x2y2Avg : List (List ℚ)
  y2z2Avg : List (List ℚ)
  alphaXz : List (List ℚ)
  alphaXy : List (List ℚ)
  alphaYz : List (List ℚ)
  anisotropy : List (List ℚ)
deriving DecidableEq

/-- The close-out of `alpha_xz`: divide the six accumulators by the number
of successful files, average over molecules when `partcl_num > 1`, apply the
ε-guarded division per axis pair, and average the three α's into the
anisotropy. -/
def xzFinalize (M : Nat) (st : DriverState XzPayload) : Except Err XzOutput :=
  if st.success = 0 then .error .noSuccess
  else
    match st.acc with
    | none => .error .noSuccess
    | some a =>
      let k : ℚ := (st.success : ℚ)
      let avg := fun (m : List (List ℚ)) =>
        let d := m.map (fun r => r.map (fun x => x / k))
        if 1 < M then molAvg d else d
      let x2Avg := avg a.x2
      let y2Avg := avg a.y2
      let z2Avg := avg a.z2
      let x2z2Avg := avg a.x2z2
      let x2y2Avg := avg a.x2y2
      let y2z2Avg := avg a.y2z2
      let alphaXz := List.zipWith (List.zipWith axzGuard) x2z2Avg (matMul x2Avg z2Avg)
      let alphaXy := List.zipWith (List.zipWith axzGuard) x2y2Avg (matMul x2Avg y2Avg)
      let alphaYz := List.zipWith (List.zipWith axzGuard) y2z2Avg (matMul y2Avg z2Avg)
      .ok
        { success := st.success, failed := st.failed, skipped := st.skipped
          x2Avg := x2Avg, y2Avg := y2Avg, z2Avg := z2Avg
          x2z2Avg := x2z2Avg, x2y2Avg := x2y2Avg, y2z2Avg := y2z2Avg
          alphaXz := alphaXz, alphaXy := alphaXy, alphaYz := alphaYz
          anisotropy :=
            (matAdd (matAdd alphaXy alphaYz) alphaXz).map
              (fun r => r.map (fun x => x / 3)) }

/-- `alpha_xz` (numerical core): first-file existence check, accumulation
loop over `0 .. N-1`, zero-success abort, finalisation. -/
def xzRun (M nF : Nat) (fs : Nat → FileData) (N : Nat) : Except Err XzOutput :=
  if fs 0 = .missing then .error .fileNotFound
  else xzFinalize M (runDriver xzShapeOK xzPAdd (fun f => classifyXz M nF (fs f)) N)

/-! ### The `coms` and `unwrapper` drivers -/

/-- The per-call result record of `coms` (success count, failed indices, and
the written output files). -/
structure ComsOutput where
  success : Nat
  failed : List Nat
  outputs : List (Nat × List (List ℚ))
deriving DecidableEq

def comsStep (M A : Nat) (masses : List ℚ) (fs : Nat → FileData)
    (st : ComsOutput) (i : Nat) : ComsOutput :=
  match fs i with
  | .missing => { st with failed := st.failed ++ [i] }
  | .corrupt => { st with failed := st.failed ++ [i] }
  | .fine rows =>
    match computeComFile M A masses rows with
    | .ok out =>
      { st with success := st.success + 1, outputs := st.outputs ++ [(i, out)] }
    | .error _ => { st with failed := st.failed ++ [i] }

/-- `coms` (numerical core): validate both path patterns, validate the mass
list length, check that the first processed index's input exists
(`FileNotFoundError` otherwise), then process every index, recording
per-file failures without aborting. -/
def comsRun (inPat outPat : List Char) (M A : Nat) (masses : List ℚ)
    (fs : Nat → FileData) (indices : List Nat) : Except Err ComsOutput :=
  if ¬ (validate_path_pattern inPat).1 then .error .invalidPattern
  else if ¬ (validate_path_pattern outPat).1 then .error .invalidPattern
  else if masses.length ≠ A then .error .valueError
  else
    match indices with
    | [] => .ok (indices.foldl (comsStep M A masses fs) ⟨0, [], []⟩)
    | i0 :: _ =>
      if fs i0 = .missing then .error .fileNotFound
      else .ok (indices.foldl (comsStep M A masses fs) ⟨0, [], []⟩)

/-- The per-call result record of `unwrapper`. -/
structure UnwrapOutput where
  success : Nat
  failed : List Nat
  outputs : List (Nat × List UFrame)
deriving DecidableEq

/-- Reshape one flat row of `num_atoms * 3` columns into atom triples. -/
def toFrame (row : List ℚ) : UFrame :=
  (chunksOf 3 row).map (fun c => (c.getD 0 0, c.getD 1 0, c.getD 2 0))

def unwrapStep' (nAtoms : Nat) (box thold : Vec3) (fs : Nat → FileData)
    (st : UnwrapOutput) (i : Nat) : UnwrapOutput :=
  match fs i with
  | .missing => { st with failed := st.failed ++ [i] }
  | .corrupt => { st with failed := st.failed ++ [i] }
  | .fine rows =>
    if rows.all (fun r => r.length = nAtoms * 3) then
      { st with success := st.success + 1
                outputs := st.outputs ++
                  [(i, unwrapFile box thold (rows.map toFrame))] }
    else { st with failed := st.failed ++ [i] }

/-- `unwrapper` (numerical core): validate the three path patterns, read the
box size from the XSC file's last line (a `ValueError`-kind abort on
failure) and halve it into the thresholds, check that the first processed
index's input exists, then unwrap every file, recording per-file failures
without aborting. -/
def unwrapRun (inPat outPat xscPat : List Char) (xsc : List (List ℚ))
    (nAtoms : Nat) (fs : Nat → FileData) (indices : List Nat) :
    Except Err UnwrapOutput :=
  if ¬ (validate_path_pattern inPat).1 then .error .invalidPattern
  else if ¬ (validate_path_pattern outPat).1 then .error .invalidPattern
  else if ¬ (validate_path_pattern xscPat).1 then .error .invalidPattern
  else
    match readBoxSize xsc with
    | none => .error .valueError
    | some box =>
      match indices with
      | [] =>
        .ok (indices.foldl (unwrapStep' nAtoms box (halfVec box) fs) ⟨0, [], []⟩)
      | i0 :: _ =>
        if fs i0 = .missing then .error .fileNotFound
        else
          .ok (indices.foldl (unwrapStep' nAtoms box (halfVec box) fs) ⟨0, [], []⟩)

instance {ε α : Type} [DecidableEq ε] [DecidableEq α] :
    DecidableEq (Except ε α) := fun x y =>
  match x, y with
  | .ok a, .ok b =>
    if h : a = b then .isTrue (by rw [h]) else .isFalse (by simp [h])
  | .error a, .error b =>
    if h : a = b then .isTrue (by rw [h]) else .isFalse (by simp [h])
  | .ok _, .error _ => .isFalse (by simp)
  | .error _, .ok _ => .isFalse (by simp)

/-! ### Helper lemmas for the center-of-mass entry formula -/

theorem flatten_length_of_fixed {α : Type} (k : Nat) :
    ∀ L : List (List α), (∀ c ∈ L, c.length = k) →
      L.flatten.length = L.length * k := by
  intro L
  induction L with
  | nil => intro _; simp
  | cons c rest ih =>
    intro h
    have hc : c.length = k := h c (List.mem_cons_self c rest)
    have := ih (fun x hx => h x (List.mem_cons_of_mem c hx))
    simp only [List.flatten_cons, List.length_append, List.length_cons, hc, this]
    ring

theorem flatten_getElem?_of_fixed {α : Type} (k : Nat) :
    ∀ (L : List (List α)) (i j : Nat), (∀ c ∈ L, c.length = k) → j < k →
      L.flatten[i * k + j]? = L[i]?.bind (fun w => w[j]?) := by
  intro L
  induction L with
  | nil => intro i j _ _; simp
  | cons c rest ih =>
    intro i j hlen hj
    have hc : c.length = k := hlen c (List.mem_cons_self c rest)
    cases i with
    | zero =>
      simp only [Nat.zero_mul, Nat.zero_add, List.flatten_cons,
        List.getElem?_cons_zero, Option.some_bind]
      rw [List.getElem?_append]
      simp [hc, hj]
    | succ n =>
      have hge : c.length ≤ (n + 1) * k + j := by
        rw [hc]; calc k ≤ (n + 1) * k := Nat.le_mul_of_pos_left k (Nat.succ_pos n)
          _ ≤ (n + 1) * k + j := Nat.le_add_right _ _
      simp only [List.flatten_cons, List.getElem?_cons_succ]
      rw [List.getElem?_append]
      have hlt : ¬ ((n + 1) * k + j < c.length) := by omega
      rw [if_neg hlt, hc]
      have harith : (n + 1) * k + j - k = n * k + j := by
        have : (n + 1) * k = n * k + k := by ring
        omega
      rw [harith]
      exact ih n j (fun x hx => hlen x (List.mem_cons_of_mem c hx)) hj

theorem weightedSum_length (masses : List ℚ) :
    ∀ atoms : List (List ℚ), (∀ a ∈ atoms, a.length = 3) →
      (weightedSum masses atoms).length = 3 := by
  induction masses with
  | nil => intro atoms _; simp [weightedSum]
  | cons m ms ih =>
    intro atoms hlen
    cases atoms with
    | nil => simp [weightedSum]
    | cons a as =>
      have ha : a.length = 3 := hlen a (List.mem_cons_self a as)
      have := ih as (fun x hx => hlen x (List.mem_cons_of_mem a hx))
      simp only [weightedSum, List.zipWith_cons_cons, List.foldr_cons] at *
      simp [vAdd, List.length_zipWith, List.length_map, ha, this]

theorem weightedSum_getElem? (j : Nat) (hj : j < 3) :
    ∀ (atoms : List (List ℚ)) (masses : List ℚ),
      (∀ a ∈ atoms, a.length = 3) → masses.length = atoms.length →
      (weightedSum masses atoms)[j]? =
        some (((List.range atoms.length).map (fun t =>
          masses.getD t 0 * (atoms.getD t []).getD j 0)).sum) := by
  intro atoms
  induction atoms with
  | nil =>
    intro masses _ hm
    have : masses = [] := List.eq_nil_of_length_eq_zero (by simpa using hm)
    subst this
    interval_cases j <;> simp [weightedSum]
  | cons a as ih =>
    intro masses hlen hm
    cases masses with
    | nil => simp at hm
    | cons m ms =>
      have ha : a.length = 3 := hlen a (List.mem_cons_self a as)
      have hm' : ms.length = as.length := by simpa using hm
      have has : ∀ x ∈ as, x.length = 3 :=
        fun x hx => hlen x (List.mem_cons_of_mem a hx)
      have hrec := ih ms has hm'
      have hstep : weightedSum (m :: ms) (a :: as) =
          vAdd (a.map (fun c => m * c)) (weightedSum ms as) := by
        simp [weightedSum]
      rw [hstep]
      have hlen3 : (weightedSum ms as).length = 3 := weightedSum_length ms as has
      have hja : j < a.length := by omega
      have hgets : (a.map (fun c => m * c))[j]? = some (m * a.getD j 0) := by
        rw [List.getElem?_map, List.getElem?_eq_getElem hja,
          List.getD_eq_getElem a 0 hja]
        rfl
      have hvadd : (vAdd (a.map (fun c => m * c)) (weightedSum ms as))[j]? =
          some (m * a.getD j 0 +
            ((List.range as.length).map (fun t =>
              ms.getD t 0 * (as.getD t []).getD j 0)).sum) := by
        unfold vAdd
        rw [List.getElem?_zipWith', hgets, hrec]
        simp
      rw [hvadd]
      congr 1
      simp only [List.length_cons, List.range_succ_eq_map, List.map_cons,
        List.map_map, List.sum_cons]
      congr 1

/-- C1: for every valid input file (all rows of length `M*A*3`), the
center-of-mass operation produces as many output rows as input rows, each of
length `3*M`, whose `(mol, ax)` entry is the mass-weighted reduction
`Σ_t masses[t] * row[mol*A*3 + t*3 + ax] / Σ masses`; for masses `[1, 3]`
and one molecule with atoms `(0,0,0)` and `(0,0,4)` the result is
`(0,0,3)`. -/
theorem C1_coms_shape_and_formula (M A : Nat) (masses : List ℚ)
    (data : List (List ℚ)) (hA : 0 < A) (hm : masses.length = A)
    (hdata : ∀ r ∈ data, r.length = M * A * 3) :
    ∃ out, computeComFile M A masses data = .ok out ∧
      out.length = data.length ∧
      (∀ r ∈ out, r.length = 3 * M) ∧
      (∀ f mol ax, f < data.length → mol < M → ax < 3 →
        out[f]?.bind (fun r => r[mol * 3 + ax]?) =
          some (((List.range A).map (fun t =>
            masses.getD t 0 *
              (data.getD f []).getD (mol * (A * 3) + (t * 3 + ax)) 0)).sum /
            masses.sum)) ∧
      computeComFile 1 2 [1, 3] [[0, 0, 0, 0, 0, 4]] = .ok [[0, 0, 3]] := by
  have hall : data.all (fun r => r.length = M * A * 3) = true := by
    rw [List.all_eq_true]
    intro r hr
    simp [hdata r hr]
  refine ⟨data.map (comRow A masses), ?_, by simp, ?_, ?_, by
    norm_num [computeComFile, comRow, chunksOf, chunksOfGo, weightedSum, vAdd]⟩
  · simp [computeComFile, hall]
  · -- row lengths
    intro r hr
    obtain ⟨row, hrow, hreq⟩ := List.mem_map.mp hr
    subst hreq
    have hrl : row.length = M * (A * 3) := by
      rw [hdata row hrow]; ring
    unfold comRow
    have h3 : 0 < A * 3 := by omega
    obtain ⟨hclen, hcmem⟩ := chunksOf_spec (A * 3) h3 M row hrl
    rw [flatten_length_of_fixed 3]
    · rw [List.length_map, hclen]; ring
    · intro x hx
      obtain ⟨mol, hmol, hxeq⟩ := List.mem_map.mp hx
      subst hxeq
      rw [List.length_map]
      refine weightedSum_length masses _ ?_
      intro a ha
      exact (chunksOf_spec 3 (by omega) A mol (hcmem mol hmol)).2 a ha
  · -- entry formula
    intro f mol ax hf hmol hax
    have hfget : (data.map (comRow A masses))[f]? =
        some (comRow A masses (data.getD f [])) := by
      rw [List.getElem?_map, List.getElem?_eq_getElem hf,
        List.getD_eq_getElem data [] hf]
      rfl
    rw [hfget, Option.some_bind]
    set row := data.getD f [] with hrowdef
    have hrowmem : row ∈ data := by
      rw [hrowdef, List.getD_eq_getElem data [] hf]
      exact List.getElem_mem hf
    have hrl : row.length = M * (A * 3) := by
      rw [hdata row hrowmem]; ring
    have h3 : 0 < A * 3 := by omega
    obtain ⟨hclen, hcmem⟩ := chunksOf_spec (A * 3) h3 M row hrl
    unfold comRow
    set L := (chunksOf (A * 3) row).map (fun mol =>
      (weightedSum masses (chunksOf 3 mol)).map (fun c => c / masses.sum))
      with hLdef
    have hLfix : ∀ c ∈ L, c.length = 3 := by
      intro x hx
      obtain ⟨m0, hm0, hxeq⟩ := List.mem_map.mp hx
      subst hxeq
      rw [List.length_map]
      refine weightedSum_length masses _ ?_
      intro a ha
      exact (chunksOf_spec 3 (by omega) A m0 (hcmem m0 hm0)).2 a ha
    rw [flatten_getElem?_of_fixed 3 L mol ax hLfix hax]
    have hchunk : (chunksOf (A * 3) row)[mol]? =
        some ((row.drop (mol * (A * 3))).take (A * 3)) :=
      chunksOf_getElem? (A * 3) h3 M mol row hrl hmol
    have hLmol : L[mol]? = some
        ((weightedSum masses
            (chunksOf 3 ((row.drop (mol * (A * 3))).take (A * 3)))).map
          (fun c => c / masses.sum)) := by
      rw [hLdef, List.getElem?_map, hchunk]
      rfl
    rw [hLmol, Option.some_bind]
    set c := (row.drop (mol * (A * 3))).take (A * 3) with hcdef
    have hclen' : c.length = A * 3 := by
      rw [hcdef]
      simp only [List.length_take, List.length_drop, hrl]
      have : mol * (A * 3) + A * 3 ≤ M * (A * 3) := by
        have : mol + 1 ≤ M := hmol
        calc mol * (A * 3) + A * 3 = (mol + 1) * (A * 3) := by ring
          _ ≤ M * (A * 3) := Nat.mul_le_mul_right _ this
      omega
    have hc3 : c.length = A * 3 := hclen'
    obtain ⟨hatlen, hatmem⟩ := chunksOf_spec 3 (by omega) A c hc3
    have hws := weightedSum_getElem? ax hax (chunksOf 3 c) masses hatmem
      (by rw [hatlen, hm])
    rw [List.getElem?_map, hws]
    rw [Option.map_some']
    congr 1
    rw [hatlen]
    congr 1
    congr 1
    refine List.map_congr_left ?_
    intro t ht
    have htA : t < A := List.mem_range.mp ht
    congr 1
    have hat : (chunksOf 3 c)[t]? = some ((c.drop (t * 3)).take 3) :=
      chunksOf_getElem? 3 (by omega) A t c hc3 htA
    have hgetD : (chunksOf 3 c).getD t [] = (c.drop (t * 3)).take 3 := by
      rw [List.getD_eq_getElem?_getD, hat]
      rfl
    rw [hgetD]
    have haxlt : t * 3 + ax < c.length := by
      rw [hc3]
      have : t * 3 + ax < t * 3 + 3 := by omega
      have h2 : t * 3 + 3 ≤ A * 3 := by
        have : t + 1 ≤ A := htA
        calc t * 3 + 3 = (t + 1) * 3 := by ring
          _ ≤ A * 3 := Nat.mul_le_mul_right _ this
      omega
    have hidx : mol * (A * 3) + (t * 3 + ax) < row.length := by
      rw [hrl]
      have : mol * (A * 3) + (A * 3) ≤ M * (A * 3) := by
        have : mol + 1 ≤ M := hmol
        calc mol * (A * 3) + A * 3 = (mol + 1) * (A * 3) := by ring
          _ ≤ M * (A * 3) := Nat.mul_le_mul_right _ this
      have := hc3 ▸ haxlt
      omega
    rw [List.getD_eq_getElem?_getD, List.getD_eq_getElem?_getD]
    congr 1
    rw [List.getElem?_take_of_lt (by omega : ax < (3 : Nat)), List.getElem?_drop]
    rw [hcdef, List.getElem?_take_of_lt (by omega : t * 3 + ax < A * 3),
      List.getElem?_drop]

/-- Witness for C1 at `M = 1`, `A = 2`, masses `[1, 3]`, one frame. -/
theorem C1_coms_shape_and_formula_witness :
    ∃ out, computeComFile 1 2 [1, 3] [[0, 0, 0, 0, 0, 4]] = .ok out ∧
      out.length = 1 ∧
      (∀ r ∈ out, r.length = 3 * 1) ∧
      (∀ f mol ax, f < 1 → mol < 1 → ax < 3 →
        out[f]?.bind (fun r => r[mol * 3 + ax]?) =
          some (((List.range 2).map (fun t =>
            ([1, 3] : List ℚ).getD t 0 *
              (([[0, 0, 0, 0, 0, 4]] : List (List ℚ)).getD f []).getD
                (mol * (2 * 3) + (t * 3 + ax)) 0)).sum /
            ([1, 3] : List ℚ).sum)) ∧
      computeComFile 1 2 [1, 3] [[0, 0, 0, 0, 0, 4]] = .ok [[0, 0, 3]] := by
  have h := C1_coms_shape_and_formula 1 2 [1, 3] [[0, 0, 0, 0, 0, 4]]
    (by decide) (by decide) (by decide)
  obtain ⟨out, h1, h2, h3, h4, h5⟩ := h
  exact ⟨out, h1, by rw [h2]; rfl, h3, h4, h5⟩

/-! ### Unwrapping: minimum-image lemmas -/

/-- "No jump larger than half the box" between two consecutive frames:
atom-by-atom, each axis displacement is bounded by the threshold. -/
def diffOK (thold : Vec3) (a b : UFrame) : Prop :=
  List.Forall₂ (fun va vb =>
    |vb.1 - va.1| ≤ thold.1 ∧ |vb.2.1 - va.2.1| ≤ thold.2.1 ∧
    |vb.2.2 - va.2.2| ≤ thold.2.2) a b

theorem correct1_of_abs_le {box t d : ℚ} (h : |d| ≤ t) :
    correct1 box t d = d := by
  rw [abs_le] at h
  unfold correct1
  rw [if_neg (not_lt.mpr h.2), if_neg (not_lt.mpr h.1), add_zero]

theorem unwrapStep_id (box thold : Vec3) :
    ∀ pw cu : UFrame, diffOK thold pw cu →
      unwrapStep box thold pw pw cu = cu := by
  intro pw cu h
  induction h with
  | nil => rfl
  | @cons va vb pwt cut hab htl ih =>
    simp only [unwrapStep, List.zipWith_cons_cons]
    congr 1
    · obtain ⟨h1, h2, h3⟩ := hab
      simp only [correctVec, vsub, vadd,
        correct1_of_abs_le h1, correct1_of_abs_le h2, correct1_of_abs_le h3]
      obtain ⟨x, y, z⟩ := vb
      obtain ⟨x', y', z'⟩ := va
      simp only [Prod.mk.injEq]
      exact ⟨by ring, by ring, by ring⟩

theorem unwrapAux_id (box thold : Vec3) :
    ∀ (rest : List UFrame) (pw : UFrame),
      List.Chain (diffOK thold) pw rest →
      unwrapAux box thold pw pw rest = rest := by
  intro rest
  induction rest with
  | nil => intro pw _; rfl
  | cons cu rest' ih =>
    intro pw hchain
    rcases hchain with _ | ⟨hd, htl⟩
    simp only [unwrapAux]
    rw [unwrapStep_id box thold pw cu hd]
    rw [ih cu htl]

/-- C8: if no coordinate changes by more than half the box length in any
axis between any two consecutive frames, the unwrap recurrence returns the
trajectory unchanged — no minimum-image correction fires. -/
theorem C8_unwrap_identity (box : Vec3) (frames : List UFrame)
    (h : List.Chain' (diffOK (halfVec box)) frames) :
    unwrapFile box (halfVec box) frames = frames := by
  cases frames with
  | nil => rfl
  | cons f rest =>
    simp only [unwrapFile]
    rw [unwrapAux_id box (halfVec box) rest f h]

/-- Witness for C8: a two-frame single-atom trajectory whose jump `(1,1,1)`
is below the half-box threshold `5` stays unchanged. -/
theorem C8_unwrap_identity_witness :
    unwrapFile (10, 10, 10) (halfVec (10, 10, 10))
      [[(0, 0, 0)], [(1, 1, 1)]] = [[(0, 0, 0)], [(1, 1, 1)]] := by
  apply C8_unwrap_identity
  refine List.chain'_cons.mpr ⟨?_, List.chain'_singleton _⟩
  refine List.Forall₂.cons ?_ List.Forall₂.nil
  refine ⟨?_, ?_, ?_⟩ <;> norm_num [halfVec]

/-- C2 counterexample: with box length 10 (threshold 5) and wrapped
`x = [4.0, 9.0]`, the raw difference is exactly `5.0`, the comparison
`diff > thold` is strict, no correction fires, and the unwrapped trajectory
is `[4.0, 9.0]` — not `[4.0, -1.0]` as the claim states. -/
theorem C2_counterexample :
    unwrapFile (10, 10, 10) (5, 5, 5) [[(4, 0, 0)], [(9, 0, 0)]] ≠
      [[(4, 0, 0)], [(-1, 0, 0)]] := by
  have h : unwrapFile (10, 10, 10) (5, 5, 5) [[(4, 0, 0)], [(9, 0, 0)]] =
      [[(4, 0, 0)], [(9, 0, 0)]] := by
    norm_num [unwrapFile, unwrapAux, unwrapStep, correctVec, correct1, vsub, vadd]
  rw [h]
  simp only [ne_eq, List.cons.injEq, Prod.mk.injEq, and_true, true_and]
  intro hc
  norm_num at hc

/-- C2 amended: the minimum-image comparison is strict, so a raw difference
equal to the half-box threshold is left uncorrected: `x = [4.0, 9.0]`
unwraps to itself.  A difference strictly above the threshold is corrected:
`x = [4.0, 9.5]` (diff `5.5 > 5`) is corrected by `-10` and unwraps to
`[4.0, -0.5]`; at the scalar level `correct1` keeps `5` and maps `5.5` to
`-4.5`. -/
theorem C2_amended_strict_threshold :
    unwrapFile (10, 10, 10) (halfVec (10, 10, 10))
      [[(4, 0, 0)], [(9, 0, 0)]] = [[(4, 0, 0)], [(9, 0, 0)]] ∧
    unwrapFile (10, 10, 10) (halfVec (10, 10, 10))
      [[(4, 0, 0)], [(19 / 2, 0, 0)]] = [[(4, 0, 0)], [(-1 / 2, 0, 0)]] ∧
    correct1 10 5 5 = 5 ∧ correct1 10 5 (11 / 2) = -9 / 2 := by
  refine ⟨?_, ?_, ?_, ?_⟩ <;>
    norm_num [unwrapFile, unwrapAux, unwrapStep, correctVec, correct1,
      vsub, vadd, halfVec]

/-- C7 counterexample: on a last XSC line with tokens `0, 11, ..., 19`, the
code reads the 0-indexed tokens 1, 5, 9 (values `11, 15, 19`), while the
claim's 1-indexed positions 1, 5, 9 would be the tokens `0, 14, 18`; the two
readings differ. -/
theorem C7_counterexample :
    readBoxSize [[0, 11, 12, 13, 14, 15, 16, 17, 18, 19]] = some (11, 15, 19) ∧
    readBoxSizeSpecOneIndexed [[0, 11, 12, 13, 14, 15, 16, 17, 18, 19]] =
      some (0, 14, 18) ∧
    readBoxSize [[0, 11, 12, 13, 14, 15, 16, 17, 18, 19]] ≠
      readBoxSizeSpecOneIndexed [[0, 11, 12, 13, 14, 15, 16, 17, 18, 19]] := by
  refine ⟨rfl, rfl, ?_⟩
  intro h
  rw [show readBoxSize [[0, 11, 12, 13, 14, 15, 16, 17, 18, 19]] =
      some ((11 : ℚ), (15 : ℚ), (19 : ℚ)) from rfl,
    show readBoxSizeSpecOneIndexed [[0, 11, 12, 13, 14, 15, 16, 17, 18, 19]] =
      some ((0 : ℚ), (14 : ℚ), (18 : ℚ)) from rfl] at h
  simp only [Option.some.injEq, Prod.mk.injEq] at h
  norm_num at h

/-- Every processed output of the unwrap fold comes from a `fine` input file
with the right column count and equals the unwrap recurrence applied with
the given box and thresholds. -/
theorem unwrap_foldl_outputs_mem (nAtoms : Nat) (box thold : Vec3)
    (fs : Nat → FileData) :
    ∀ (l : List Nat) (st : UnwrapOutput) (p : Nat × List UFrame),
      p ∈ (l.foldl (unwrapStep' nAtoms box thold fs) st).outputs →
      p ∈ st.outputs ∨ (p.1 ∈ l ∧ ∃ rows, fs p.1 = .fine rows ∧
        (rows.all (fun r => r.length = nAtoms * 3)) = true ∧
        p.2 = unwrapFile box thold (rows.map toFrame)) := by
  intro l
  induction l with
  | nil => intro st p hp; exact Or.inl hp
  | cons i l' ih =>
    intro st p hp
    rw [List.foldl_cons] at hp
    rcases ih (unwrapStep' nAtoms box thold fs st i) p hp with hin | ⟨hmem, hrest⟩
    · unfold unwrapStep' at hin
      cases hfs : fs i with
      | missing => rw [hfs] at hin; exact Or.inl hin
      | corrupt => rw [hfs] at hin; exact Or.inl hin
      | fine rows =>
        rw [hfs] at hin
        by_cases hall : (rows.all (fun r => r.length = nAtoms * 3)) = true
        · simp only [hall, if_true, List.mem_append, List.mem_singleton] at hin
          rcases hin with hin | hin
          · exact Or.inl hin
          · subst hin
            exact Or.inr ⟨List.mem_cons_self i l',
              rows, hfs, hall, rfl⟩
        · simp only [hall, if_false] at hin
          exact Or.inl hin
    · exact Or.inr ⟨List.mem_cons_of_mem i hmem, hrest⟩

/-- C7 amended: the box size is read only from the last line of the XSC
file, taking the numeric tokens at 0-indexed positions 1, 5 and 9 (i.e. the
2nd, 6th and 10th tokens) as the x, y, z box lengths, and every output of a
successful unwrap run is computed with those box lengths and the half-box
thresholds derived from them. -/
theorem C7_box_read_and_thresholds :
    (∀ (pre : List (List ℚ)) (lst : List ℚ),
      readBoxSize (pre ++ [lst]) = readBoxSize [lst]) ∧
    (∀ xs : List ℚ, 10 ≤ xs.length →
      readBoxSize [xs] = some (xs.getD 1 0, xs.getD 5 0, xs.getD 9 0)) ∧
    (∀ inP outP xscP xsc nA fs idx r box,
      unwrapRun inP outP xscP xsc nA fs idx = .ok r →
      readBoxSize xsc = some box →
      ∀ p ∈ r.outputs, ∃ rows, fs p.1 = .fine rows ∧
        p.2 = unwrapFile box (halfVec box) (rows.map toFrame)) := by
  refine ⟨?_, ?_, ?_⟩
  · intro pre lst
    unfold readBoxSize
    rw [List.getLast?_concat]
    rfl
  · intro xs h
    have h1 : xs[1]? = some (xs.getD 1 0) := by
      rw [List.getElem?_eq_getElem (by omega), List.getD_eq_getElem xs 0 (by omega)]
    have h5 : xs[5]? = some (xs.getD 5 0) := by
      rw [List.getElem?_eq_getElem (by omega), List.getD_eq_getElem xs 0 (by omega)]
    have h9 : xs[9]? = some (xs.getD 9 0) := by
      rw [List.getElem?_eq_getElem (by omega), List.getD_eq_getElem xs 0 (by omega)]
    simp only [readBoxSize, List.getLast?_singleton, h1, h5, h9]
  · intro inP outP xscP xsc nA fs idx r box hrun hbox
    intro p hp
    unfold unwrapRun at hrun
    split_ifs at hrun
    have hfold : ∀ (b : Vec3) (l : List Nat),
        (Except.ok (l.foldl (unwrapStep' nA b (halfVec b) fs)
          ⟨0, [], []⟩) : Except Err UnwrapOutput) = .ok r →
        b = box →
        ∃ rows, fs p.1 = .fine rows ∧
          p.2 = unwrapFile box (halfVec box) (rows.map toFrame) := by
      intro b l hl hb
      subst hb
      have hr : r = l.foldl (unwrapStep' nA b (halfVec b) fs) ⟨0, [], []⟩ :=
        (Except.ok.inj hl).symm
      subst hr
      rcases unwrap_foldl_outputs_mem nA b (halfVec b) fs l ⟨0, [], []⟩ p hp
        with hemp | ⟨_, rows, hrows, _, heq⟩
      · simp at hemp
      · exact ⟨rows, hrows, heq⟩
    split at hrun
    · exact absurd hrun (by simp)
    · rename_i b heq
      have hb : b = box := by
        rw [heq] at hbox
        exact Option.some.inj hbox
      split at hrun
      · exact hfold b _ hrun hb
      · split_ifs at hrun
        exact hfold b _ hrun hb

/-- Witness for C7: the token list `0, 11, ..., 19` has at least 10 entries
and its 0-indexed tokens 1, 5, 9 are `11, 15, 19`. -/
theorem C7_box_read_and_thresholds_witness :
    10 ≤ ([0, 11, 12, 13, 14, 15, 16, 17, 18, 19] : List ℚ).length ∧
    readBoxSize [[0, 11, 12, 13, 14, 15, 16, 17, 18, 19]] = some (11, 15, 19) := by
  refine ⟨by norm_num, ?_⟩
  rw [C7_box_read_and_thresholds.2.1 [0, 11, 12, 13, 14, 15, 16, 17, 18, 19]
    (by norm_num)]
  rfl

/-! ### Path-pattern validation lemmas -/

theorem specLitICount_nil : specLitICount [] = 0 := rfl

theorem specLitICount_cons (c : Char) (rest : List Char) :
    specLitICount (c :: rest) =
      (if (c :: rest).take 3 = ['\x7b', 'i', '\x7d'] then 1 else 0) +
        specLitICount rest := by
  unfold specLitICount
  rw [List.length_cons, List.range_succ_eq_map, List.countP_cons,
    List.countP_map, Nat.add_comm]
  congr 1
  simp only [List.drop_zero, decide_eq_true_eq]

theorem countLitI_eq_spec : ∀ p : List Char, countLitI p = specLitICount p := by
  intro p
  induction p using countLitI.induct with
  | case1 rest ih =>
    have h1 : specLitICount ('\x7b' :: 'i' :: '\x7d' :: rest) =
        1 + specLitICount ('i' :: '\x7d' :: rest) := by
      rw [specLitICount_cons]
      norm_num [List.take]
    have h2 : specLitICount ('i' :: '\x7d' :: rest) =
        specLitICount ('\x7d' :: rest) := by
      have hx2 : ¬ (('i' :: '\x7d' :: rest).take 3 = ['\x7b', 'i', '\x7d']) := by
        intro hx
        simp only [List.take, List.cons.injEq] at hx
        exact absurd hx.1 (by decide)
      rw [specLitICount_cons, if_neg hx2, Nat.zero_add]
    have h3 : specLitICount ('\x7d' :: rest) = specLitICount rest := by
      have hx3 : ¬ (('\x7d' :: rest).take 3 = ['\x7b', 'i', '\x7d']) := by
        intro hx
        simp only [List.take, List.cons.injEq] at hx
        exact absurd hx.1 (by decide)
      rw [specLitICount_cons, if_neg hx3, Nat.zero_add]
    show countLitI rest + 1 = _
    rw [h1, h2, h3, ih]
    omega
  | case2 hd rest h ih =>
    have hnotpat : ¬ ((hd :: rest).take 3 = ['\x7b', 'i', '\x7d']) := by
      intro hcontra
      cases rest with
      | nil => simp [List.take] at hcontra
      | cons c2 rest2 =>
        cases rest2 with
        | nil => simp [List.take] at hcontra
        | cons c3 rest3 =>
          simp only [List.take, List.cons.injEq] at hcontra
          exact h rest3 hcontra.1 (by rw [hcontra.2.1, hcontra.2.2.1])
    have hstep : countLitI (hd :: rest) = countLitI rest := by
      rw [countLitI.eq_def]
      split
      · rename_i heq
        exfalso
        apply hnotpat
        rw [heq]
        simp [List.take]
      · rename_i heq
        injection heq with e1 e2
        rw [e2]
      · rename_i heq
        exact absurd heq (by simp)
    rw [hstep, ih, specLitICount_cons, if_neg hnotpat]
    exact (Nat.zero_add _).symm
  | case3 => rfl

theorem scanBody_sound : ∀ (l : List Char) (n : Nat), scanBody l n = true →
    ∃ body b, l = body ++ '\x7d' :: b ∧ 1 ≤ n + body.length ∧
      ∀ c ∈ body, c ≠ 'i' ∧ c ≠ '\x7d' := by
  intro l
  induction l with
  | nil => intro n h; simp [scanBody] at h
  | cons c rest ih =>
    intro n h
    by_cases hc : c = '\x7d'
    · subst hc
      simp only [scanBody, if_pos rfl, decide_eq_true_eq] at h
      exact ⟨[], rest, rfl, by simpa using h, by simp⟩
    · by_cases hi : c = 'i'
      · subst hi
        simp [scanBody, hc] at h
      · simp only [scanBody, if_neg hc, if_neg hi] at h
        obtain ⟨body, b, heq, hlen, hmem⟩ := ih (n + 1) h
        refine ⟨c :: body, b, by rw [heq]; rfl, by simp; omega, ?_⟩
        intro x hx
        rcases List.mem_cons.mp hx with hx | hx
        · subst hx; exact ⟨hi, hc⟩
        · exact hmem x hx

theorem scanBody_complete : ∀ (body : List Char) (n : Nat) (b : List Char),
    (∀ c ∈ body, c ≠ 'i' ∧ c ≠ '\x7d') → 1 ≤ n + body.length →
    scanBody (body ++ '\x7d' :: b) n = true := by
  intro body
  induction body with
  | nil =>
    intro n b _ hn
    simp only [List.length_nil, Nat.add_zero] at hn
    simp [scanBody]
    omega
  | cons c body' ih =>
    intro n b hmem _
    obtain ⟨hi, hc⟩ := hmem c (List.mem_cons_self c body')
    simp only [List.cons_append, scanBody, if_neg hc, if_neg hi]
    refine ih (n + 1) b (fun x hx => hmem x (List.mem_cons_of_mem c hx)) (by omega)

theorem hasBadPlaceholder_iff :
    ∀ p : List Char, hasBadPlaceholder p = true ↔ BadPlaceholder p := by
  intro p
  induction p with
  | nil =>
    simp only [hasBadPlaceholder, Bool.false_eq_true, false_iff]
    rintro ⟨a, body, b, heq, -, -⟩
    exact absurd heq (by simp)
  | cons c rest ih =>
    constructor
    · intro h
      simp only [hasBadPlaceholder, Bool.or_eq_true, Bool.and_eq_true,
        decide_eq_true_eq] at h
      rcases h with ⟨hc, hscan⟩ | h
      · subst hc
        obtain ⟨body, b, heq, hlen, hmem⟩ := scanBody_sound rest 0 hscan
        exact ⟨[], body, b, by rw [heq]; rfl,
          by intro hb; subst hb; simp at hlen, hmem⟩
      · obtain ⟨a, body, b, heq, hne, hmem⟩ := ih.mp h
        exact ⟨c :: a, body, b, by rw [heq]; rfl, hne, hmem⟩
    · rintro ⟨a, body, b, heq, hne, hmem⟩
      simp only [hasBadPlaceholder, Bool.or_eq_true, Bool.and_eq_true,
        decide_eq_true_eq]
      cases a with
      | nil =>
        left
        simp only [List.nil_append, List.cons.injEq] at heq
        refine ⟨heq.1, ?_⟩
        rw [heq.2]
        refine scanBody_complete body 0 b hmem ?_
        have : body ≠ [] := hne
        have : 0 < body.length := List.length_pos.mpr this
        omega
      | cons c' a' =>
        right
        refine ih.mpr ⟨a', body, b, ?_, hne, hmem⟩
        simpa using congrArg List.tail heq

/-- C9 counterexample: the pattern `"\x7bi+1\x7d_\x7bi+1\x7d"` contains two
index placeholders (two brace groups), yet `validate_path_pattern` accepts
it: the first check counts only the literal substring `"\x7bi\x7d"` (count
0 here) and the placeholder regex skips any group whose body contains the
letter `i`. -/
theorem C9_counterexample :
    braceGroupCount
      ['\x7b', 'i', '+', '1', '\x7d', '_', '\x7b', 'i', '+', '1', '\x7d'] = 2 ∧
    (validate_path_pattern
      ['\x7b', 'i', '+', '1', '\x7d', '_', '\x7b', 'i', '+', '1', '\x7d']).1 =
      true := by
  constructor
  · decide
  · decide

/-- C9 amended: a nonempty pattern is accepted iff it has at most one
occurrence of the literal substring `"\x7bi\x7d"`, no brace group whose
nonempty body avoids both `i` and closing braces, and equal counts of
opening and closing braces (the empty pattern is always accepted) — in
particular several arithmetic placeholders such as `"\x7bi+1\x7d"` pass;
and an invalid input pattern makes `coms` fail with the pattern error for
every filesystem, before any file is consulted. -/
theorem C9_validation_characterisation :
    (∀ p : List Char, (validate_path_pattern p).1 = true ↔
      (p = [] ∨ (specLitICount p ≤ 1 ∧ ¬ BadPlaceholder p ∧
        p.count '\x7b' = p.count '\x7d'))) ∧
    (∀ (inPat outPat : List Char) (M A : Nat) (masses : List ℚ)
        (fs : Nat → FileData) (indices : List Nat),
      (validate_path_pattern inPat).1 = false →
      comsRun inPat outPat M A masses fs indices = .error .invalidPattern) := by
  constructor
  · intro p
    unfold validate_path_pattern
    rw [← countLitI_eq_spec, ← hasBadPlaceholder_iff]
    split_ifs with h1 h2 h3 h4
    · simp [h1]
    · refine iff_of_false (by simp) ?_
      rintro (hp | ⟨hle, -, -⟩)
      · exact h1 hp
      · omega
    · refine iff_of_false (by simp) ?_
      rintro (hp | ⟨-, hbad, -⟩)
      · exact h1 hp
      · exact hbad h3
    · refine iff_of_false (by simp) ?_
      rintro (hp | ⟨-, -, hcnt⟩)
      · exact h1 hp
      · exact h4 hcnt
    · exact iff_of_true rfl (Or.inr ⟨by omega, h3, not_not.mp h4⟩)
  · intro inPat outPat M A masses fs indices h
    unfold comsRun
    rw [h]
    rfl

/-- Witness for C9: the two-placeholder pattern is nonempty and satisfies
the three acceptance conditions, hence is accepted; and `coms` with the
invalid pattern `"\x7b"` errors before touching any file. -/
theorem C9_validation_characterisation_witness :
    (validate_path_pattern
      ['\x7b', 'i', '+', '1', '\x7d', '_', '\x7b', 'i', '+', '1', '\x7d']).1 =
      true ∧
    comsRun ['\x7b'] [] 1 1 [1] (fun _ => .missing) [0] =
      .error .invalidPattern := by
  constructor
  · refine (C9_validation_characterisation.1 _).mpr (Or.inr ⟨?_, ?_, ?_⟩)
    · rw [← countLitI_eq_spec]; decide
    · intro hb
      exact absurd ((hasBadPlaceholder_iff _).mpr hb) (by decide)
    · decide
  · exact C9_validation_characterisation.2 ['\x7b'] [] 1 1 [1]
      (fun _ => .missing) [0] (by decide)

/-! ### Generic lemmas about the shared accumulation loop -/

section DriverLemmas

variable {π : Type} [DecidableEq π] (sOK : π → π → Bool) (padd : π → π → π)
  (classify : Nat → FileClass π)

theorem driverStep_failed_superset (st : DriverState π) (f i : Nat)
    (h : i ∈ st.failed) : i ∈ (driverStep sOK padd classify st f).failed := by
  unfold driverStep
  cases classify f with
  | failedC => simp [h]
  | skippedC => simp [h]
  | okC p =>
    cases st.acc with
    | none => simp [h]
    | some a => by_cases hs : sOK a p <;> simp [hs, h]

theorem foldl_driver_failed_superset :
    ∀ (l : List Nat) (st : DriverState π) (i : Nat), i ∈ st.failed →
      i ∈ (l.foldl (driverStep sOK padd classify) st).failed := by
  intro l
  induction l with
  | nil => intro st i h; exact h
  | cons f l' ih =>
    intro st i h
    rw [List.foldl_cons]
    exact ih _ i (driverStep_failed_superset sOK padd classify st f i h)

theorem foldl_driver_failed_of_failedC :
    ∀ (l : List Nat) (st : DriverState π) (i : Nat), i ∈ l →
      classify i = .failedC →
      i ∈ (l.foldl (driverStep sOK padd classify) st).failed := by
  intro l
  induction l with
  | nil => intro st i h; simp at h
  | cons f l' ih =>
    intro st i hmem hc
    rw [List.foldl_cons]
    rcases List.mem_cons.mp hmem with h | h
    · subst h
      refine foldl_driver_failed_superset sOK padd classify l' _ i ?_
      unfold driverStep
      rw [hc]
      simp
    · exact ih _ i h hc

end DriverLemmas

/-! ### Inversion lemmas for the four drivers -/

theorem a2Run_ok_inv (M nF : Nat) (fs : Nat → FileData) (N : Nat)
    (r : A2Output) (h : a2Run M nF fs N = .ok r) :
    ∃ a2 a4,
      (runDriver a2ShapeOK a2PAdd (fun f => classifyA2 M nF (fs f)) N).acc =
        some (a2, a4) ∧
      r.success =
        (runDriver a2ShapeOK a2PAdd (fun f => classifyA2 M nF (fs f)) N).success ∧
      r.failed =
        (runDriver a2ShapeOK a2PAdd (fun f => classifyA2 M nF (fs f)) N).failed ∧
      r.skipped =
        (runDriver a2ShapeOK a2PAdd (fun f => classifyA2 M nF (fs f)) N).skipped ∧
      r.success ≠ 0 ∧
      r.acc2 = a2 ∧ r.acc4 = a4 ∧
      r.msdAvg = a2.map (fun row => row.map (fun x => x / (r.success : ℚ))) ∧
      r.msd4Avg = a4.map (fun row => row.map (fun x => x / (r.success : ℚ))) ∧
      r.msdOut = (if 2 < M then molAvg r.msdAvg else r.msdAvg) ∧
      r.msd4Out = (if 2 < M then molAvg r.msd4Avg else r.msd4Avg) ∧
      r.alpha2 = List.zipWith (List.zipWith alpha2Guard) r.msdOut r.msd4Out := by
  unfold a2Run at h
  split_ifs at h
  unfold a2Finalize at h
  by_cases hzero :
    (runDriver a2ShapeOK a2PAdd (fun f => classifyA2 M nF (fs f)) N).success = 0
  · rw [if_pos hzero] at h
    exact absurd h (by simp)
  · rw [if_neg hzero] at h
    split at h
    · exact absurd h (by simp)
    · rename_i a2 a4 heq
      have hr := Except.ok.inj h
      subst hr
      exact ⟨a2, a4, heq, rfl, rfl, rfl, hzero, rfl, rfl, rfl, rfl, rfl, rfl, rfl⟩

theorem xzRun_ok_inv (M nF : Nat) (fs : Nat → FileData) (N : Nat)
    (r : XzOutput) (h : xzRun M nF fs N = .ok r) :
    r.success =
      (runDriver xzShapeOK xzPAdd (fun f => classifyXz M nF (fs f)) N).success ∧
    r.failed =
      (runDriver xzShapeOK xzPAdd (fun f => classifyXz M nF (fs f)) N).failed ∧
    r.skipped =
      (runDriver xzShapeOK xzPAdd (fun f => classifyXz M nF (fs f)) N).skipped ∧
    r.success ≠ 0 ∧
    r.alphaXz =
      List.zipWith (List.zipWith axzGuard) r.x2z2Avg (matMul r.x2Avg r.z2Avg) ∧
    r.alphaXy =
      List.zipWith (List.zipWith axzGuard) r.x2y2Avg (matMul r.x2Avg r.y2Avg) ∧
    r.alphaYz =
      List.zipWith (List.zipWith axzGuard) r.y2z2Avg (matMul r.y2Avg r.z2Avg) := by
  unfold xzRun at h
  split_ifs at h
  unfold xzFinalize at h
  by_cases hzero :
    (runDriver xzShapeOK xzPAdd (fun f => classifyXz M nF (fs f)) N).success = 0
  · rw [if_pos hzero] at h
    exact absurd h (by simp)
  · rw [if_neg hzero] at h
    split at h
    · exact absurd h (by simp)
    · rename_i a heq
      have hr := Except.ok.inj h
      subst hr
      exact ⟨rfl, rfl, rfl, hzero, rfl, rfl, rfl⟩

theorem comsRun_ok_inv (inP outP : List Char) (M A : Nat) (masses : List ℚ)
    (fs : Nat → FileData) (indices : List Nat) (r : ComsOutput)
    (h : comsRun inP outP M A masses fs indices = .ok r) :
    r = indices.foldl (comsStep M A masses fs) ⟨0, [], []⟩ := by
  unfold comsRun at h
  split_ifs at h
  split at h
  · exact (Except.ok.inj h).symm
  · split_ifs at h
    exact (Except.ok.inj h).symm

theorem unwrapRun_ok_inv (inP outP xscP : List Char) (xsc : List (List ℚ))
    (nA : Nat) (fs : Nat → FileData) (indices : List Nat) (r : UnwrapOutput)
    (h : unwrapRun inP outP xscP xsc nA fs indices = .ok r) :
    ∃ box, readBoxSize xsc = some box ∧
      r = indices.foldl (unwrapStep' nA box (halfVec box) fs) ⟨0, [], []⟩ := by
  unfold unwrapRun at h
  split_ifs at h
  split at h
  · exact absurd h (by simp)
  · rename_i box heq
    refine ⟨box, heq, ?_⟩
    split at h
    · exact (Except.ok.inj h).symm
    · split_ifs at h
      exact (Except.ok.inj h).symm

/-! ### Failed-list lemmas for the coms and unwrap folds -/

theorem coms_foldl_failed_superset (M A : Nat) (masses : List ℚ)
    (fs : Nat → FileData) :
    ∀ (l : List Nat) (st : ComsOutput) (i : Nat), i ∈ st.failed →
      i ∈ (l.foldl (comsStep M A masses fs) st).failed := by
  intro l
  induction l with
  | nil => intro st i h; exact h
  | cons f l' ih =>
    intro st i h
    rw [List.foldl_cons]
    refine ih _ i ?_
    unfold comsStep
    cases fs f with
    | missing => simp [h]
    | corrupt => simp [h]
    | fine rows =>
      cases hcf : computeComFile M A masses rows with
      | ok out => simp [hcf, h]
      | error e => simp [hcf, h]

theorem coms_foldl_failed_of_missing (M A : Nat) (masses : List ℚ)
    (fs : Nat → FileData) :
    ∀ (l : List Nat) (st : ComsOutput) (i : Nat), i ∈ l → fs i = .missing →
      i ∈ (l.foldl (comsStep M A masses fs) st).failed := by
  intro l
  induction l with
  | nil => intro st i h; simp at h
  | cons f l' ih =>
    intro st i hmem hfs
    rw [List.foldl_cons]
    rcases List.mem_cons.mp hmem with h | h
    · subst h
      refine coms_foldl_failed_superset M A masses fs l' _ i ?_
      unfold comsStep
      rw [hfs]
      simp
    · exact ih _ i h hfs

theorem unwrap_foldl_failed_superset (nA : Nat) (box thold : Vec3)
    (fs : Nat → FileData) :
    ∀ (l : List Nat) (st : UnwrapOutput) (i : Nat), i ∈ st.failed →
      i ∈ (l.foldl (unwrapStep' nA box thold fs) st).failed := by
  intro l
  induction l with
  | nil => intro st i h; exact h
  | cons f l' ih =>
    intro st i h
    rw [List.foldl_cons]
    refine ih _ i ?_
    unfold unwrapStep'
    cases fs f with
    | missing => simp [h]
    | corrupt => simp [h]
    | fine rows =>
      by_cases hall : (rows.all fun r => decide (r.length = nA * 3)) = true <;>
        simp [hall, h]

theorem unwrap_foldl_failed_of_missing (nA : Nat) (box thold : Vec3)
    (fs : Nat → FileData) :
    ∀ (l : List Nat) (st : UnwrapOutput) (i : Nat), i ∈ l → fs i = .missing →
      i ∈ (l.foldl (unwrapStep' nA box thold fs) st).failed := by
  intro l
  induction l with
  | nil => intro st i h; simp at h
  | cons f l' ih =>
    intro st i hmem hfs
    rw [List.foldl_cons]
    rcases List.mem_cons.mp hmem with h | h
    · subst h
      refine unwrap_foldl_failed_superset nA box thold fs l' _ i ?_
      unfold unwrapStep'
      rw [hfs]
      simp
    · exact ih _ i h hfs

/-! ### Matrix-entry helpers -/

/-- Entry `(t, m)` of a frames-by-molecules matrix, when present. -/
def matEntry (a : List (List ℚ)) (t m : Nat) : Option ℚ :=
  a[t]?.bind (fun row => row[m]?)

theorem matEntry_zipWith (f : ℚ → ℚ → ℚ) (a b : List (List ℚ)) (t m : Nat)
    (x y : ℚ) (ha : matEntry a t m = some x) (hb : matEntry b t m = some y) :
    matEntry (List.zipWith (List.zipWith f) a b) t m = some (f x y) := by
  unfold matEntry at ha hb ⊢
  cases hat : a[t]? with
  | none => rw [hat] at ha; simp at ha
  | some ra =>
    cases hbt : b[t]? with
    | none => rw [hbt] at hb; simp at hb
    | some rb =>
      rw [hat, Option.some_bind] at ha
      rw [hbt, Option.some_bind] at hb
      rw [List.getElem?_zipWith', hat, hbt]
      simp only [Option.map_some', Option.some_bind]
      rw [List.getElem?_zipWith', ha, hb]
      rfl

theorem matEntry_map (g : ℚ → ℚ) (a : List (List ℚ)) (t m : Nat) (x : ℚ)
    (h : matEntry a t m = some x) :
    matEntry (a.map (fun row => row.map g)) t m = some (g x) := by
  unfold matEntry at h ⊢
  cases hat : a[t]? with
  | none => rw [hat] at h; simp at h
  | some ra =>
    rw [hat, Option.some_bind] at h
    rw [List.getElem?_map, hat]
    simp only [Option.map_some', Option.some_bind]
    rw [List.getElem?_map, h]
    rfl

/-! ### Scalar-multiple lemmas for the identical-files ensemble -/

theorem vAdd_smul_succ (j : ℚ) :
    ∀ r : List ℚ, vAdd (r.map (fun x => j * x)) r = r.map (fun x => (j + 1) * x) := by
  intro r
  induction r with
  | nil => rfl
  | cons x r' ih =>
    simp only [List.map_cons, vAdd, List.zipWith_cons_cons]
    congr 1
    ring

theorem matAdd_smul_succ (j : ℚ) :
    ∀ m : List (List ℚ), matAdd (matSMul j m) m = matSMul (j + 1) m := by
  intro m
  induction m with
  | nil => rfl
  | cons r m' ih =>
    simp only [matSMul, List.map_cons, matAdd, List.zipWith_cons_cons] at *
    congr 1
    exact vAdd_smul_succ j r

theorem matSMul_one (m : List (List ℚ)) : matSMul 1 m = m := by
  simp [matSMul]

theorem matSMul_length (c : ℚ) (m : List (List ℚ)) :
    (matSMul c m).length = m.length := by
  simp [matSMul]

theorem matDiv_smul_cancel (c : ℚ) (hc : c ≠ 0) (m : List (List ℚ)) :
    (matSMul c m).map (fun row => row.map (fun x => x / c)) = m := by
  unfold matSMul
  rw [List.map_map]
  have : ∀ row : List ℚ,
      ((fun row => row.map (fun x => x / c)) ∘
        (fun row => row.map (fun x => c * x))) row = row := by
    intro row
    simp only [Function.comp_apply, List.map_map]
    have : ∀ x : ℚ, ((fun x => x / c) ∘ (fun x => c * x)) x = x := by
      intro x
      simp only [Function.comp_apply]
      exact mul_div_cancel_left₀ x hc
    rw [List.map_congr_left (fun x _ => this x)]
    simp
  rw [List.map_congr_left (fun row _ => this row)]
  simp

/-- Left fold of the shared accumulation loop when every file classifies to
the same successful payload `p`: starting from a successful state with `j`
files accumulated, all further files succeed and accumulate. -/
theorem foldl_driver_const_aux {π : Type} [DecidableEq π]
    (sOK : π → π → Bool) (padd : π → π → π) (classify : Nat → FileClass π)
    (p : π) (iter : Nat → π)
    (hc : ∀ f, classify f = .okC p)
    (hiterS : ∀ j, 1 ≤ j → iter (j + 1) = padd (iter j) p)
    (hsOK : ∀ j, 1 ≤ j → sOK (iter j) p = true) :
    ∀ (l : List Nat) (j : Nat), 1 ≤ j →
      l.foldl (driverStep sOK padd classify) ⟨j, [], [], some (iter j)⟩ =
        ⟨j + l.length, [], [], some (iter (j + l.length))⟩ := by
  intro l
  induction l with
  | nil => intro j hj; simp
  | cons f l' ih =>
    intro j hj
    rw [List.foldl_cons]
    have hstep : driverStep sOK padd classify ⟨j, [], [], some (iter j)⟩ f =
        ⟨j + 1, [], [], some (iter (j + 1))⟩ := by
      simp only [driverStep, hc f, hsOK j hj, if_true]
      rw [hiterS j hj]
    rw [hstep, ih (j + 1) (by omega)]
    simp only [List.length_cons]
    have harith : j + 1 + l'.length = j + (l'.length + 1) := by omega
    rw [harith]

theorem foldl_driver_const {π : Type} [DecidableEq π]
    (sOK : π → π → Bool) (padd : π → π → π) (classify : Nat → FileClass π)
    (p : π) (iter : Nat → π)
    (hc : ∀ f, classify f = .okC p) (hiter1 : iter 1 = p)
    (hiterS : ∀ j, 1 ≤ j → iter (j + 1) = padd (iter j) p)
    (hsOK : ∀ j, 1 ≤ j → sOK (iter j) p = true) :
    ∀ k : Nat, 1 ≤ k →
      runDriver sOK padd classify k = ⟨k, [], [], some (iter k)⟩ := by
  intro k hk
  obtain ⟨k', rfl⟩ : ∃ k', k = k' + 1 := ⟨k - 1, by omega⟩
  unfold runDriver
  rw [List.range_succ_eq_map]
  rw [List.foldl_cons]
  have hstep : driverStep sOK padd classify (initState π) 0 =
      ⟨1, [], [], some (iter 1)⟩ := by
    simp only [driverStep, hc 0, initState, hiter1]
  rw [hstep]
  have := foldl_driver_const_aux sOK padd classify p iter hc hiterS hsOK
    ((List.range k').map Nat.succ) 1 le_rfl
  rw [this]
  simp only [List.length_map, List.length_range]
  rw [Nat.add_comm 1 k']

/-- C3 counterexample: with `minFrames = 2` and a 3-row file, the per-file
squared displacements have 3 rows (the third row contributes the value `4`),
not 2 — the data is not truncated to `minFrames` rows. -/
theorem C3_counterexample :
    a2Run 1 2 (fun _ => .fine [[0, 0, 0], [1, 0, 0], [2, 0, 0]]) 1 =
      .ok ⟨1, [], [], [[0], [1], [4]], [[0], [1], [16]],
           [[0], [1], [4]], [[0], [1], [16]],
           [[0], [1], [4]], [[0], [1], [16]],
           [[0], [-2/5], [-2/5]]⟩ ∧
    ([[0], [1], [4]] : List (List ℚ)).length ≠ 2 := by
  constructor
  · norm_num [a2Run, a2Finalize, runDriver, driverStep, initState, classifyA2,
      loadCols, fileD2, fileDisp, chunksOf, chunksOfGo, a2ShapeOK, a2PAdd,
      matAdd, vAdd, molAvg, alpha2Guard, eps, List.range_succ]
    intro hcontra
    exact absurd hcontra (by simp)
  · decide

/-- C3 amended: no truncation happens.  The per-file contribution of
`a2_MSD` and `alpha_xz` is computed over all loaded rows of the file
(loaded as a 2-D array) — `minFrames` only decides whether the file is
skipped — so the contribution is independent of the threshold whenever the
file passes it, and its frame count equals the file's full row count. -/
theorem C3_no_truncation (M nF nF' : Nat) (d : FileData)
    (rows : List (List ℚ)) (hload : loadCols M d = .twoD rows)
    (h1 : nF ≤ rows.length) (h2 : nF' ≤ rows.length) :
    classifyA2 M nF d = classifyA2 M nF' d ∧
    classifyXz M nF d = classifyXz M nF' d ∧
    classifyA2 M nF d = .okC (fileD2 rows,
      (fileD2 rows).map (fun r => r.map (fun x => x ^ 2))) ∧
    (fileD2 rows).length = rows.length := by
  have hn1 : ¬ (rows.length < nF) := by omega
  have hn2 : ¬ (rows.length < nF') := by omega
  refine ⟨?_, ?_, ?_, ?_⟩
  · unfold classifyA2
    rw [hload]
    simp only [hn1, hn2, if_false]
  · unfold classifyXz
    rw [hload]
    simp only [hn1, hn2, if_false]
  · unfold classifyA2
    rw [hload]
    simp only [hn1, if_false]
  · simp [fileD2, fileDisp]

/-- Witness for C3 with a 3-row single-molecule file and thresholds 2, 3. -/
theorem C3_no_truncation_witness :
    loadCols 1 (.fine [[0, 0, 0], [1, 0, 0], [2, 0, 0]]) =
      .twoD [[0, 0, 0], [1, 0, 0], [2, 0, 0]] ∧
    classifyA2 1 2 (.fine [[0, 0, 0], [1, 0, 0], [2, 0, 0]]) =
      classifyA2 1 3 (.fine [[0, 0, 0], [1, 0, 0], [2, 0, 0]]) ∧
    (fileD2 [[0, 0, 0], [1, 0, 0], [2, 0, 0]]).length = 3 := by
  have hload : loadCols 1 (.fine [[0, 0, 0], [1, 0, 0], [2, 0, 0]]) =
      .twoD [[0, 0, 0], [1, 0, 0], [2, 0, 0]] := rfl
  obtain ⟨ha, _, _, hlen⟩ := C3_no_truncation 1 2 3 _ _ hload
    (by norm_num) (by norm_num)
  exact ⟨hload, ha, by rw [hlen]; rfl⟩

/-- C5: the ε-guard of `a2_MSD` forces α₂ to exactly `0` at every entry
whose squared ensemble MSD is below `ε = 1e-12` (in particular where the
MSD is zero), and `alpha_xz` applies the same ε-guard independently per
axis pair (xz, xy, yz) on the product denominators. -/
theorem C5_epsilon_guard :
    (∀ M nF fs N r t m v w,
      a2Run M nF fs N = .ok r →
      matEntry r.msdOut t m = some v →
      matEntry r.msd4Out t m = some w →
      v ^ 2 < eps →
      matEntry r.alpha2 t m = some 0) ∧
    (∀ M nF fs N r t m num den,
      xzRun M nF fs N = .ok r →
      matEntry r.x2z2Avg t m = some num →
      matEntry (matMul r.x2Avg r.z2Avg) t m = some den →
      |den| < eps →
      matEntry r.alphaXz t m = some 0) ∧
    (∀ M nF fs N r t m num den,
      xzRun M nF fs N = .ok r →
      matEntry r.x2y2Avg t m = some num →
      matEntry (matMul r.x2Avg r.y2Avg) t m = some den →
      |den| < eps →
      matEntry r.alphaXy t m = some 0) ∧
    (∀ M nF fs N r t m num den,
      xzRun M nF fs N = .ok r →
      matEntry r.y2z2Avg t m = some num →
      matEntry (matMul r.y2Avg r.z2Avg) t m = some den →
      |den| < eps →
      matEntry r.alphaYz t m = some 0) := by
  refine ⟨?_, ?_, ?_, ?_⟩
  · intro M nF fs N r t m v w hrun hv hw heps
    obtain ⟨a2, a4, _, _, _, _, _, _, _, _, _, _, _, halpha⟩ :=
      a2Run_ok_inv M nF fs N r hrun
    rw [halpha]
    rw [matEntry_zipWith alpha2Guard r.msdOut r.msd4Out t m v w hv hw]
    simp [alpha2Guard, heps]
  · intro M nF fs N r t m num den hrun hnum hden heps
    obtain ⟨_, _, _, _, hxz, _, _⟩ := xzRun_ok_inv M nF fs N r hrun
    rw [hxz]
    rw [matEntry_zipWith axzGuard r.x2z2Avg (matMul r.x2Avg r.z2Avg) t m
      num den hnum hden]
    simp [axzGuard, heps]
  · intro M nF fs N r t m num den hrun hnum hden heps
    obtain ⟨_, _, _, _, _, hxy, _⟩ := xzRun_ok_inv M nF fs N r hrun
    rw [hxy]
    rw [matEntry_zipWith axzGuard r.x2y2Avg (matMul r.x2Avg r.y2Avg) t m
      num den hnum hden]
    simp [axzGuard, heps]
  · intro M nF fs N r t m num den hrun hnum hden heps
    obtain ⟨_, _, _, _, _, _, hyz⟩ := xzRun_ok_inv M nF fs N r hrun
    rw [hyz]
    rw [matEntry_zipWith axzGuard r.y2z2Avg (matMul r.y2Avg r.z2Avg) t m
      num den hnum hden]
    simp [axzGuard, heps]

/-- Witness for C5: at `t = 0` the MSD is `0`, `0² < ε`, and α₂(0) is
exactly `0`. -/
theorem C5_epsilon_guard_witness :
    a2Run 1 1 (fun _ => .fine [[0, 0, 0], [1, 0, 0]]) 1 =
      .ok ⟨1, [], [], [[0], [1]], [[0], [1]], [[0], [1]], [[0], [1]],
           [[0], [1]], [[0], [1]], [[0], [-2/5]]⟩ ∧
    (0 : ℚ) ^ 2 < eps ∧
    matEntry [[(0 : ℚ)], [-2/5]] 0 0 = some 0 := by
  have hrun : a2Run 1 1 (fun _ => .fine [[0, 0, 0], [1, 0, 0]]) 1 =
      .ok ⟨1, [], [], [[0], [1]], [[0], [1]], [[0], [1]], [[0], [1]],
           [[0], [1]], [[0], [1]], [[0], [-2/5]]⟩ := by
    norm_num [a2Run, a2Finalize, runDriver, driverStep, initState, classifyA2,
      loadCols, fileD2, fileDisp, chunksOf, chunksOfGo, a2ShapeOK, a2PAdd,
      matAdd, vAdd, molAvg, alpha2Guard, eps, List.range_succ]
    intro hcontra
    exact absurd hcontra (by simp)
  refine ⟨hrun, by norm_num [eps], ?_⟩
  exact C5_epsilon_guard.1 1 1 _ 1 _ 0 0 0 0 hrun rfl rfl (by norm_num [eps])

/-- A list of copies of one value sums to length times the value. -/
theorem sum_const_list (l : List ℚ) (d : ℚ) (h : ∀ x ∈ l, x = d) :
    l.sum = (l.length : ℚ) * d := by
  induction l with
  | nil => simp
  | cons x l' ih =>
    simp only [List.sum_cons, List.length_cons]
    rw [h x (by simp), ih (fun y hy => h y (List.mem_cons_of_mem x hy))]
    push_cast
    ring

/-- Inversion of a `zipWith` lookup: a defined entry comes from defined
entries of both inputs. -/
theorem zipWith_getElem?_inv {α β γ : Type} (f : α → β → γ) :
    ∀ (a : List α) (b : List β) (i : Nat) (v : γ),
      (List.zipWith f a b)[i]? = some v →
      ∃ x y, a[i]? = some x ∧ b[i]? = some y ∧ v = f x y := by
  intro a
  induction a with
  | nil => intro b i v h; simp at h
  | cons x a' ih =>
    intro b i v h
    cases b with
    | nil => simp at h
    | cons y b' =>
      cases i with
      | zero =>
        rw [List.zipWith_cons_cons, List.getElem?_cons_zero] at h
        injection h with h
        exact ⟨x, y, by simp, by simp, h.symm⟩
      | succ i' =>
        rw [List.zipWith_cons_cons, List.getElem?_cons_succ] at h
        obtain ⟨x1, y1, hx, hy, hv⟩ := ih b' i' v h
        exact ⟨x1, y1, by rw [List.getElem?_cons_succ]; exact hx,
          by rw [List.getElem?_cons_succ]; exact hy, hv⟩

/-- Matrix form of `zipWith_getElem?_inv`: a defined entry of an
element-wise combination comes from defined entries of both matrices. -/
theorem matEntry_zipWith_inv (f : ℚ → ℚ → ℚ) (a b : List (List ℚ))
    (t m : Nat) (v : ℚ)
    (h : matEntry (List.zipWith (List.zipWith f) a b) t m = some v) :
    ∃ x y, matEntry a t m = some x ∧ matEntry b t m = some y ∧ v = f x y := by
  unfold matEntry at h ⊢
  cases hz : (List.zipWith (List.zipWith f) a b)[t]? with
  | none => rw [hz] at h; simp at h
  | some zr =>
    rw [hz, Option.some_bind] at h
    obtain ⟨ra, rb, hra, hrb, hzr⟩ :=
      zipWith_getElem?_inv (List.zipWith f) a b t zr hz
    subst hzr
    obtain ⟨x, y, hx, hy, hv⟩ := zipWith_getElem?_inv f ra rb m v h
    exact ⟨x, y, by rw [hra, Option.some_bind]; exact hx,
      by rw [hrb, Option.some_bind]; exact hy, hv⟩

/-- The defined entries of `np.mean(·, axis=1)` sit in column `0` and hold
the row mean. -/
theorem molAvg_entry_inv (a : List (List ℚ)) (t m : Nat) (x : ℚ)
    (h : matEntry (molAvg a) t m = some x) :
    ∃ row, a[t]? = some row ∧ m = 0 ∧ x = row.sum / (row.length : ℚ) := by
  unfold matEntry molAvg at h
  rw [List.getElem?_map] at h
  cases hA : a[t]? with
  | none => rw [hA] at h; simp at h
  | some row =>
    rw [hA] at h
    simp only [Option.map_some', Option.some_bind] at h
    cases m with
    | zero =>
      rw [List.getElem?_cons_zero] at h
      injection h with h
      exact ⟨row, rfl, rfl, h.symm⟩
    | succ m' =>
      rw [List.getElem?_cons_succ] at h
      simp at h

/-- The α₂ guard applied to a deterministic pair `(d, d²)`: exactly `0`
below the ε threshold, exactly `-2/5` above it. -/
theorem alpha2Guard_self_sq (d : ℚ) :
    alpha2Guard d (d ^ 2) = if d ^ 2 < eps then 0 else -2/5 := by
  unfold alpha2Guard
  split_ifs with hc
  · rfl
  · have heps0 : (0 : ℚ) < eps := by norm_num [eps]
    have hd2ne : d ^ 2 ≠ 0 := by
      intro h0
      rw [h0] at hc
      exact hc heps0
    field_simp
    ring

/-- Every row of the squared-displacement matrix of a file whose rows all
have `M * 3` kept columns has exactly `M` entries (one per molecule). -/
theorem fileD2_row_length (M : Nat) (rowsL : List (List ℚ))
    (hlen : ∀ r ∈ rowsL, r.length = M * 3) (t : Nat) (drow : List ℚ)
    (h : (fileD2 rowsL)[t]? = some drow) : drow.length = M := by
  cases rowsL with
  | nil => simp [fileD2, fileDisp] at h
  | cons r0 tl =>
    have hch : ∀ r ∈ (r0 :: tl), (chunksOf 3 r).length = M := by
      intro r hr
      exact (chunksOf_spec 3 (by norm_num) M r (hlen r hr)).1
    simp only [fileD2, fileDisp] at h
    rw [List.getElem?_map, List.getElem?_map, List.getElem?_map] at h
    cases hr : (r0 :: tl)[t]? with
    | none => rw [hr] at h; simp at h
    | some r =>
      rw [hr] at h
      simp only [Option.map_some'] at h
      injection h with h
      rw [← h]
      simp only [List.length_map, List.length_zipWith, List.map_cons,
        List.headD_cons]
      rw [hch r (List.getElem?_mem hr), hch r0 (by simp)]
      exact Nat.min_self M

/-- C6 counterexample: a deterministic single-file ensemble (trivially zero
variance) with displacement sequence `d2 = [0, 1]` yields `α₂(0) = 0`
(forced by the ε-guard, since `d2(0) = 0` by construction), not `-0.4`;
α₂ is therefore not constant `-0.4` over all time points. -/
theorem C6_counterexample :
    a2Run 1 2 (fun _ => .fine [[0, 0, 0], [1, 0, 0]]) 1 =
      .ok ⟨1, [], [], [[0], [1]], [[0], [1]], [[0], [1]], [[0], [1]],
           [[0], [1]], [[0], [1]], [[0], [-2/5]]⟩ ∧
    matEntry [[(0 : ℚ)], [-2/5]] 0 0 = some 0 ∧
    (0 : ℚ) ≠ -2/5 := by
  refine ⟨?_, rfl, by norm_num⟩
  norm_num [a2Run, a2Finalize, runDriver, driverStep, initState, classifyA2,
    loadCols, fileD2, fileDisp, chunksOf, chunksOfGo, a2ShapeOK, a2PAdd,
    matAdd, vAdd, molAvg, alpha2Guard, eps, List.range_succ]
  intro hcontra
  exact absurd hcontra (by simp)

/-- C6 amended: for an ensemble of `k` identical trajectory files with zero
variance across files and molecules — at time `t` every molecule shares the
squared displacement `d` — every defined α₂ entry at time `t` equals `-2/5`
when `d² ≥ ε` and exactly `0` when `d² < ε` (in particular at `t = 0`,
where the displacement from the reference frame is zero), for any molecule
count: with more than 2 molecules the molecule averaging preserves the
common value, otherwise the entries hold it directly. -/
theorem C6_deterministic_ensemble (M nF k : Nat) (rows : List (List ℚ))
    (r : A2Output) (rowsL : List (List ℚ)) (t : Nat) (d : ℚ) (drow : List ℚ)
    (hrun : a2Run M nF (fun _ => .fine rows) k = .ok r)
    (hload : loadCols M (.fine rows) = .twoD rowsL)
    (hd2row : (fileD2 rowsL)[t]? = some drow)
    (hconst : ∀ x ∈ drow, x = d) :
    (∀ m v, matEntry r.alpha2 t m = some v →
      v = if d ^ 2 < eps then 0 else -2/5) ∧
    (drow ≠ [] →
      matEntry r.alpha2 t 0 = some (if d ^ 2 < eps then 0 else -2/5)) := by
  obtain ⟨a2, a4, hacc, hsucc, _, _, hne, hacc2, hacc4, hmsd, hmsd4,
    hout, hout4, halpha⟩ := a2Run_ok_inv M nF (fun _ => .fine rows) k r hrun
  -- the constant classification must be successful
  have hnlt : ¬ (rowsL.length < nF) := by
    by_contra hlt
    have hcls : ∀ f : Nat, classifyA2 M nF ((fun _ => FileData.fine rows) f) =
        .skippedC := by
      intro f
      unfold classifyA2
      rw [hload]
      simp only [hlt, if_true]
    have hzero : (runDriver a2ShapeOK a2PAdd
        (fun f => classifyA2 M nF ((fun _ => FileData.fine rows) f)) k).success
        = 0 := by
      unfold runDriver
      have : ∀ (l : List Nat) (st : DriverState (List (List ℚ) × List (List ℚ))),
          (l.foldl (driverStep a2ShapeOK a2PAdd
            (fun f => classifyA2 M nF ((fun _ => FileData.fine rows) f))) st).success
          = st.success := by
        intro l
        induction l with
        | nil => intro st; rfl
        | cons f l' ih =>
          intro st
          rw [List.foldl_cons, ih]
          simp [driverStep, hcls f]
      rw [this (List.range k) (initState _)]
      rfl
    rw [hzero] at hsucc
    exact hne hsucc
  set d2 := fileD2 rowsL with hd2def
  set d4 := d2.map (fun row => row.map (fun x => x ^ 2)) with hd4def
  have hcls : ∀ f : Nat, classifyA2 M nF ((fun _ => FileData.fine rows) f) =
      .okC (d2, d4) := by
    intro f
    unfold classifyA2
    rw [hload]
    simp only [hnlt, if_false]
  have hk1 : 1 ≤ k := by
    by_contra hk0
    push_neg at hk0
    interval_cases k
    have : (runDriver a2ShapeOK a2PAdd
        (fun f => classifyA2 M nF ((fun _ => FileData.fine rows) f)) 0).acc =
        none := rfl
    rw [this] at hacc
    exact absurd hacc (by simp)
  have hdrv := foldl_driver_const a2ShapeOK a2PAdd
    (fun f => classifyA2 M nF ((fun _ => FileData.fine rows) f)) (d2, d4)
    (fun j => (matSMul (j : ℚ) d2, matSMul (j : ℚ) d4)) hcls
    (by simp [matSMul_one])
    (by
      intro j hj
      have hc1 : ((j : ℚ) + 1) = ((j + 1 : Nat) : ℚ) := by push_cast; ring
      simp only [a2PAdd]
      rw [← hc1, ← matAdd_smul_succ, ← matAdd_smul_succ])
    (by
      intro j hj
      simp [a2ShapeOK, matSMul_length])
    k hk1
  rw [hdrv] at hacc
  have ha2 : a2 = matSMul (k : ℚ) d2 := by
    have := Option.some.inj hacc
    exact (congrArg Prod.fst this).symm
  have ha4 : a4 = matSMul (k : ℚ) d4 := by
    have := Option.some.inj hacc
    exact (congrArg Prod.snd this).symm
  have hsucck : r.success = k := by rw [hsucc, hdrv]
  have hkne : ((k : ℚ)) ≠ 0 := by
    exact_mod_cast Nat.pos_iff_ne_zero.mp hk1
  have hmsdeq : r.msdAvg = d2 := by
    rw [hmsd, ha2, hsucck]
    exact matDiv_smul_cancel (k : ℚ) hkne d2
  have hmsd4eq : r.msd4Avg = d4 := by
    rw [hmsd4, ha4, hsucck]
    exact matDiv_smul_cancel (k : ℚ) hkne d4
  have hd4row : d4[t]? = some (drow.map (fun x => x ^ 2)) := by
    rw [hd4def, List.getElem?_map, hd2row]
    rfl
  by_cases hM : 2 < M
  · -- molecule averaging path: `np.mean(axis=1)` of a constant row is `d`
    have houteq : r.msdOut = molAvg d2 := by rw [hout, if_pos hM, hmsdeq]
    have hout4eq : r.msd4Out = molAvg d4 := by rw [hout4, if_pos hM, hmsd4eq]
    obtain ⟨hall, hmapeq, hlen2⟩ := loadCols_twoD_inv M rows rowsL hload
    have hrowlen : ∀ rr ∈ rowsL, rr.length = M * 3 := by
      intro rr hrr
      rw [hmapeq] at hrr
      obtain ⟨r0, hr0, hrr0⟩ := List.mem_map.mp hrr
      rw [← hrr0, List.length_take]
      exact Nat.min_eq_left (hall r0 hr0)
    have hdlen : drow.length = M :=
      fileD2_row_length M rowsL hrowlen t drow (by rw [← hd2def]; exact hd2row)
    have hMnez : ((drow.length : ℚ)) ≠ 0 := by
      rw [hdlen]
      exact_mod_cast (by omega : M ≠ 0)
    have hsum2 : drow.sum = (drow.length : ℚ) * d := sum_const_list drow d hconst
    have hsq : ∀ x ∈ drow.map (fun x => x ^ 2), x = d ^ 2 := by
      intro x hx
      obtain ⟨x0, hx0, hxx⟩ := List.mem_map.mp hx
      rw [← hxx, hconst x0 hx0]
    have hsum4 : (drow.map (fun x => x ^ 2)).sum
        = ((drow.map (fun x => x ^ 2)).length : ℚ) * d ^ 2 :=
      sum_const_list _ _ hsq
    have hlen4 : (drow.map (fun x => x ^ 2)).length = drow.length :=
      List.length_map _ _
    have hmav2 : matEntry (molAvg d2) t 0 = some d := by
      unfold matEntry molAvg
      rw [List.getElem?_map, hd2row]
      simp only [Option.map_some', Option.some_bind, List.getElem?_cons_zero]
      rw [hsum2, mul_div_cancel_left₀ d hMnez]
    have hmav4 : matEntry (molAvg d4) t 0 = some (d ^ 2) := by
      unfold matEntry molAvg
      rw [List.getElem?_map, hd4row]
      simp only [Option.map_some', Option.some_bind, List.getElem?_cons_zero]
      rw [hsum4, hlen4, mul_div_cancel_left₀ (d ^ 2) hMnez]
    constructor
    · intro m v hv
      rw [halpha, houteq, hout4eq] at hv
      obtain ⟨x, y, hx, hy, hveq⟩ := matEntry_zipWith_inv alpha2Guard _ _ t m v hv
      obtain ⟨row2, hrow2, hm0, hxval⟩ := molAvg_entry_inv d2 t m x hx
      obtain ⟨row4, hrow4, _, hyval⟩ := molAvg_entry_inv d4 t m y hy
      have hr2 : row2 = drow := Option.some.inj (hrow2.symm.trans hd2row)
      have hr4 : row4 = drow.map (fun x => x ^ 2) :=
        Option.some.inj (hrow4.symm.trans hd4row)
      rw [hveq, hxval, hyval, hr2, hr4, hsum2, mul_div_cancel_left₀ d hMnez,
        hsum4, hlen4, mul_div_cancel_left₀ (d ^ 2) hMnez]
      exact alpha2Guard_self_sq d
    · intro _
      rw [halpha, houteq, hout4eq,
        matEntry_zipWith alpha2Guard (molAvg d2) (molAvg d4) t 0 d (d ^ 2)
          hmav2 hmav4, alpha2Guard_self_sq]
  · -- no molecule averaging: entries are the constant value directly
    have houteq : r.msdOut = d2 := by rw [hout, if_neg hM, hmsdeq]
    have hout4eq : r.msd4Out = d4 := by rw [hout4, if_neg hM, hmsd4eq]
    constructor
    · intro m v hv
      rw [halpha, houteq, hout4eq] at hv
      obtain ⟨x, y, hx, hy, hveq⟩ := matEntry_zipWith_inv alpha2Guard _ _ t m v hv
      unfold matEntry at hx hy
      rw [hd2row, Option.some_bind] at hx
      rw [hd4row, Option.some_bind] at hy
      have hxd : x = d := hconst x (List.getElem?_mem hx)
      rw [List.getElem?_map, hx] at hy
      simp only [Option.map_some'] at hy
      injection hy with hy
      rw [hveq, ← hy, hxd]
      exact alpha2Guard_self_sq d
    · intro hne'
      obtain ⟨x0, tl, hdrow⟩ : ∃ x0 tl, drow = x0 :: tl := by
        cases drow with
        | nil => exact absurd rfl hne'
        | cons a b => exact ⟨a, b, rfl⟩
      have hx0 : x0 = d := hconst x0 (by rw [hdrow]; simp)
      have hent2 : matEntry d2 t 0 = some d := by
        unfold matEntry
        rw [hd2row, Option.some_bind, hdrow, List.getElem?_cons_zero, hx0]
      have hent4 : matEntry d4 t 0 = some (d ^ 2) := by
        unfold matEntry
        rw [hd4row, Option.some_bind, List.getElem?_map, hdrow,
          List.getElem?_cons_zero, hx0]
        rfl
      rw [halpha, houteq, hout4eq,
        matEntry_zipWith alpha2Guard d2 d4 t 0 d (d ^ 2) hent2 hent4,
        alpha2Guard_self_sq]

/-- Witness for C6: two identical two-frame files with `d2 = [0, 1]`;
α₂(1) = -2/5 (since `1 ≥ ε`) and α₂(0) = 0 (since `0 < ε`). -/
theorem C6_deterministic_ensemble_witness :
    a2Run 1 2 (fun _ => .fine [[0, 0, 0], [1, 0, 0]]) 2 =
      .ok ⟨2, [], [], [[0], [2]], [[0], [2]], [[0], [1]], [[0], [1]],
           [[0], [1]], [[0], [1]], [[0], [-2/5]]⟩ ∧
    matEntry [[(0 : ℚ)], [-2/5]] 1 0 = some (-2/5) ∧
    matEntry [[(0 : ℚ)], [-2/5]] 0 0 = some 0 := by
  have hrun : a2Run 1 2 (fun _ => .fine [[0, 0, 0], [1, 0, 0]]) 2 =
      .ok ⟨2, [], [], [[0], [2]], [[0], [2]], [[0], [1]], [[0], [1]],
           [[0], [1]], [[0], [1]], [[0], [-2/5]]⟩ := by
    norm_num [a2Run, a2Finalize, runDriver, driverStep, initState, classifyA2,
      loadCols, fileD2, fileDisp, chunksOf, chunksOfGo, a2ShapeOK, a2PAdd,
      matAdd, vAdd, molAvg, alpha2Guard, eps, List.range_succ]
    intro hcontra
    exact absurd hcontra (by simp)
  refine ⟨hrun, ?_, ?_⟩
  · have := (C6_deterministic_ensemble 1 2 2 [[0, 0, 0], [1, 0, 0]] _
      [[0, 0, 0], [1, 0, 0]] 1 1 [1] hrun rfl
      (by norm_num [fileD2, fileDisp, chunksOf, chunksOfGo])
      (by intro x hx; simpa using hx)).2 (by simp)
    rw [if_neg (by norm_num [eps])] at this
    exact this
  · have := (C6_deterministic_ensemble 1 2 2 [[0, 0, 0], [1, 0, 0]] _
      [[0, 0, 0], [1, 0, 0]] 0 0 [0] hrun rfl
      (by norm_num [fileD2, fileDisp, chunksOf, chunksOfGo])
      (by intro x hx; simpa using hx)).2 (by simp)
    rw [if_pos (by norm_num [eps])] at this
    exact this

/-- C10: every driver checks up front that the input file of its first
processed index exists, aborting with `FileNotFoundError` before any
per-file processing when it is missing; a missing file at a later index is
only recorded in the `failed` list of the returned record while the other
files are still processed. -/
theorem C10_first_file_check :
    (∀ M nF fs N, fs 0 = .missing →
      a2Run M nF fs N = .error .fileNotFound) ∧
    (∀ M nF fs N, fs 0 = .missing →
      xzRun M nF fs N = .error .fileNotFound) ∧
    (∀ inP outP M A masses fs i0 rest,
      (validate_path_pattern inP).1 = true →
      (validate_path_pattern outP).1 = true →
      masses.length = A → fs i0 = .missing →
      comsRun inP outP M A masses fs (i0 :: rest) = .error .fileNotFound) ∧
    (∀ inP outP xscP xsc nA fs i0 rest box,
      (validate_path_pattern inP).1 = true →
      (validate_path_pattern outP).1 = true →
      (validate_path_pattern xscP).1 = true →
      readBoxSize xsc = some box → fs i0 = .missing →
      unwrapRun inP outP xscP xsc nA fs (i0 :: rest) = .error .fileNotFound) ∧
    (∀ M nF fs N r j, a2Run M nF fs N = .ok r → j < N → fs j = .missing →
      j ∈ r.failed) ∧
    (∀ M nF fs N r j, xzRun M nF fs N = .ok r → j < N → fs j = .missing →
      j ∈ r.failed) ∧
    (∀ inP outP M A masses fs indices r j,
      comsRun inP outP M A masses fs indices = .ok r → j ∈ indices →
      fs j = .missing → j ∈ r.failed) ∧
    (∀ inP outP xscP xsc nA fs indices r j,
      unwrapRun inP outP xscP xsc nA fs indices = .ok r → j ∈ indices →
      fs j = .missing → j ∈ r.failed) := by
  refine ⟨?_, ?_, ?_, ?_, ?_, ?_, ?_, ?_⟩
  · intro M nF fs N h
    simp [a2Run, h]
  · intro M nF fs N h
    simp [xzRun, h]
  · intro inP outP M A masses fs i0 rest hin hout hmass hfs
    simp [comsRun, hin, hout, hmass, hfs]
  · intro inP outP xscP xsc nA fs i0 rest box hin hout hxsc hbox hfs
    simp [unwrapRun, hin, hout, hxsc, hbox, hfs]
  · intro M nF fs N r j hrun hjN hfs
    obtain ⟨a2, a4, _, _, hfailed, _, _, _, _, _, _, _, _, _⟩ :=
      a2Run_ok_inv M nF fs N r hrun
    rw [hfailed]
    unfold runDriver
    refine foldl_driver_failed_of_failedC _ _ _ (List.range N) _ j
      (List.mem_range.mpr hjN) ?_
    unfold classifyA2
    rw [hfs]
    rfl
  · intro M nF fs N r j hrun hjN hfs
    obtain ⟨_, hfailed, _, _, _, _, _⟩ := xzRun_ok_inv M nF fs N r hrun
    rw [hfailed]
    unfold runDriver
    refine foldl_driver_failed_of_failedC _ _ _ (List.range N) _ j
      (List.mem_range.mpr hjN) ?_
    unfold classifyXz
    rw [hfs]
    rfl
  · intro inP outP M A masses fs indices r j hrun hj hfs
    rw [comsRun_ok_inv inP outP M A masses fs indices r hrun]
    exact coms_foldl_failed_of_missing M A masses fs indices _ j hj hfs
  · intro inP outP xscP xsc nA fs indices r j hrun hj hfs
    obtain ⟨box, _, hr⟩ :=
      unwrapRun_ok_inv inP outP xscP xsc nA fs indices r hrun
    rw [hr]
    exact unwrap_foldl_failed_of_missing nA box (halfVec box) fs indices _ j
      hj hfs

/-- Witness for C10: every driver errors with `FileNotFoundError` when the
first file is absent, and a missing later file (index 1) of a successful
`a2_MSD` run is recorded in `failed`. -/
theorem C10_first_file_check_witness :
    a2Run 1 1 (fun _ => .missing) 1 = .error .fileNotFound ∧
    xzRun 1 1 (fun _ => .missing) 1 = .error .fileNotFound ∧
    comsRun [] [] 1 1 [1] (fun _ => .missing) [0] = .error .fileNotFound ∧
    unwrapRun [] [] [] [[0, 1, 2, 3, 4, 5, 6, 7, 8, 9]] 1 (fun _ => .missing)
      [0] = .error .fileNotFound ∧
    a2Run 1 2 (fun i => if i = 0 then .fine [[0, 0, 0], [1, 0, 0]]
      else .missing) 2 =
      .ok ⟨1, [1], [], [[0], [1]], [[0], [1]], [[0], [1]], [[0], [1]],
           [[0], [1]], [[0], [1]], [[0], [-2/5]]⟩ ∧
    1 ∈ ([1] : List Nat) := by
  have hrun2 : a2Run 1 2 (fun i => if i = 0 then .fine [[0, 0, 0], [1, 0, 0]]
      else .missing) 2 =
      .ok ⟨1, [1], [], [[0], [1]], [[0], [1]], [[0], [1]], [[0], [1]],
           [[0], [1]], [[0], [1]], [[0], [-2/5]]⟩ := by
    norm_num [a2Run, a2Finalize, runDriver, driverStep, initState, classifyA2,
      loadCols, fileD2, fileDisp, chunksOf, chunksOfGo, a2ShapeOK, a2PAdd,
      matAdd, vAdd, molAvg, alpha2Guard, eps, List.range_succ]
    intro hcontra
    exact absurd hcontra (by simp)
  refine ⟨C10_first_file_check.1 1 1 _ 1 rfl,
    C10_first_file_check.2.1 1 1 _ 1 rfl,
    C10_first_file_check.2.2.1 [] [] 1 1 [1] _ 0 [] (by decide) (by decide)
      rfl rfl,
    C10_first_file_check.2.2.2.1 [] [] [] [[0, 1, 2, 3, 4, 5, 6, 7, 8, 9]] 1 _
      0 [] (1, 5, 9) (by decide) (by decide) (by decide) rfl rfl,
    hrun2, ?_⟩
  exact C10_first_file_check.2.2.2.2.1 1 2 _ 2 _ 1 hrun2 (by norm_num) rfl

end ADMDynAnlz
